import Mathlib

set_option maxRecDepth 8000

namespace RegexTools

/-! Shallow embedding of `src/dfa_nfa.py` and `src/regex_parser.py`.

Words and regex strings are `List Char`.  Python dicts that map
`(state, symbol)` keys to sets of states are modelled as a key
`Finset` together with a total lookup function mirroring
`dict.get(k, set())`; the coherence fact that a missing key looks up
to the empty set (true of every Python dict) is the proposition
`SetMap.WFm`, carried as a hypothesis by the general theorems. -/

/-- Transition label: `none` is the ε label (the empty string `''` in the source). -/
abbrev Sym := Option Char

/-- A Python dict from `(state, symbol)` to a set of states: its key set plus
the lookup function (`get k = ∅` for missing keys in any actual dict). -/
structure SetMap where
  keys : Finset (Nat × Sym)
  get : Nat × Sym → Finset Nat

/-- Coherence of a `SetMap` with an actual Python dict: missing keys look up to `∅`. -/
def SetMap.WFm (d : SetMap) : Prop := ∀ k, k ∉ d.keys → d.get k = ∅

/-- Python `d.setdefault(k, set()).update(v)` (also `.add` for a singleton `v`):
union `v` into the entry at `k`, creating it when absent. -/
def SetMap.upd (d : SetMap) (k : Nat × Sym) (v : Finset Nat) : SetMap :=
  ⟨insert k d.keys, fun k2 => if k2 = k then d.get k2 ∪ v else d.get k2⟩

/-- Python `d[k] = v`. -/
def SetMap.setKey (d : SetMap) (k : Nat × Sym) (v : Finset Nat) : SetMap :=
  ⟨insert k d.keys, fun k2 => if k2 = k then v else d.get k2⟩

/-- Python `{**a, **b}`: keys of both, entries of `b` winning on collision. -/
def SetMap.merge (a b : SetMap) : SetMap :=
  ⟨a.keys ∪ b.keys, fun k => if k ∈ b.keys then b.get k else a.get k⟩

/-- All states appearing in some entry of the dict (used to bound fixpoint loops). -/
def SetMap.targets (d : SetMap) : Finset Nat := d.keys.biUnion (fun k => d.get k)

/-- Build a `SetMap` from an explicit association list (used for concrete test NFAs). -/
def SetMap.ofList (l : List ((Nat × Sym) × Finset Nat)) : SetMap :=
  ⟨(l.map Prod.fst).toFinset,
   fun k => (((l.find? (fun e => e.1 = k)).map Prod.snd).getD ∅)⟩

/-- Class `NFA` of `dfa_nfa.py` (supports ε-transitions): `(q0, delta, F)`. -/
structure NFAm where
  q0 : Nat
  delta : SetMap
  F : Finset Nat

/-- Method `NFA.Delta`: extension of `delta` to a set of states,
`union of delta.get((q, ch), set()) over q in states`. -/
def NFAm.DeltaS (n : NFAm) (S : Finset Nat) (c : Sym) : Finset Nat :=
  S.biUnion (fun q => n.delta.get (q, c))

/-- One round of the `_epsilon_closure` while-loop: add the ε-successors. -/
def NFAm.epsStep (n : NFAm) (A : Finset Nat) : Finset Nat := A ∪ n.DeltaS A none

/-- Fuel bounding the `_epsilon_closure` loop: the loop only ever visits states
of the argument or targets of `delta`, and grows strictly each round. -/
def NFAm.closureFuel (n : NFAm) (S : Finset Nat) : Nat := (S ∪ n.delta.targets).card

/-- Method `NFA._epsilon_closure`: least fixed point of adding ε-successors.
The source's worklist loop is translated as iterating the monotone round
function until its (provably reached) fixpoint. -/
def NFAm.epsClosure (n : NFAm) (S : Finset Nat) : Finset Nat :=
  (n.epsStep)^[n.closureFuel S] S

/-- Method `NFA.accepts`: ε-closure of `{q0}`, then step-and-close per character;
the state set after reading `w`. -/
def NFAm.run (n : NFAm) (w : List Char) : Finset Nat :=
  w.foldl (fun S c => n.epsClosure (n.DeltaS S (some c))) (n.epsClosure {n.q0})

/-- Method `NFA.accepts`: `bool(current_states & self.F)` after reading the word. -/
def NFAm.accepts (n : NFAm) (w : List Char) : Bool :=
  decide ((n.run w ∩ n.F).Nonempty)

/-- Method `NFA.rejects`. -/
def NFAm.rejects (n : NFAm) (w : List Char) : Bool := !n.accepts w

/-- Class `DFA` of `dfa_nfa.py`: `delta` is a partial function on `(state, char)`,
modelled as the association list of its entries (a dict with unique keys). -/
structure DFAm where
  q0 : Nat
  delta : List ((Nat × Char) × Nat)
  F : Finset Nat
deriving DecidableEq

/-- Lookup in a DFA transition list (first match; keys are unique in practice). -/
def findD (l : List ((Nat × Char) × Nat)) (k : Nat × Char) : Option Nat :=
  match l with
  | [] => none
  | (k2, v) :: rest => if k2 = k then some v else findD rest k

/-- Method `DFA.accepts`: walk from `q0`; a missing entry returns `False` at once. -/
def DFAm.go (d : DFAm) : Nat → List Char → Bool
  | q, [] => decide (q ∈ d.F)
  | q, c :: cs =>
    match findD d.delta (q, c) with
    | none => false
    | some q2 => d.go q2 cs

/-- Method `DFA.accepts`. -/
def DFAm.accepts (d : DFAm) (w : List Char) : Bool := d.go d.q0 w

/-- Method `DFA.rejects`. -/
def DFAm.rejects (d : DFAm) (w : List Char) : Bool := !d.accepts w

/-! Function `standardize` of `regex_parser.py`. -/

/-- Python `ch.isspace()` removal: `[ch for ch in regex if not ch.isspace()]`. -/
def removeWS (s : List Char) : List Char := s.filter (fun c => !c.isWhitespace)

/-- Classification used for the pair pattern: alphanumeric characters become
the letter `A`, every other character stands for itself. -/
def classify (c : Char) : Char := if c.isAlphanum then 'A' else c

/-- Membership of the two-character pattern in `concatenation_patterns`
(`{AA, A(, *A, *(, )(, )A}`). -/
def isConcatPair (a b : Char) : Bool :=
  decide ([classify a, classify b] ∈
    ([['A', 'A'], ['A', '('], ['*', 'A'], ['*', '('], [')', '('], [')', 'A']] :
      List (List Char)))

/-- Body of the `standardize` loop: emit each character and insert `'.'`
after it exactly when the pattern of it and its successor is a
concatenation pattern (the index loop of the source, phrased on the list). -/
def insertDots : List Char → List Char
  | [] => []
  | [a] => [a]
  | a :: b :: t => a :: ((if isConcatPair a b then ['.'] else []) ++ insertDots (b :: t))

/-- Function `standardize`: drop whitespace, then insert explicit concatenations. -/
def standardize (s : List Char) : List Char := insertDots (removeWS s)

/-- Modelled from the spec (section 4.1), for comparison with `standardize`:
walk every adjacent pair `(x, y)` of the whitespace-free string and put `'.'`
between `x` and `y` iff their classification pattern is a concatenation pattern. -/
def specNormalize (t : List Char) : List Char :=
  match t with
  | [] => []
  | a :: rest =>
      a :: (List.zip (a :: rest) rest).foldr
        (fun p acc => (if isConcatPair p.1 p.2 then ['.'] else []) ++ p.2 :: acc) []

/-! Function `infix_to_prefix` of `regex_parser.py` (reverse shunting-yard).
The operator stack is a `List Char` whose head is the stack top; the
result accumulates in reading order and is reversed at the end. -/

/-- Pop-and-emit while the predicate holds of the stack top; returns the
emitted characters (top first) and the remaining stack. -/
def popWhile (p : Char → Bool) : List Char → List Char × List Char
  | [] => ([], [])
  | c :: rest =>
    if p c then
      let (e, s) := popWhile p rest
      (c :: e, s)
    else ([], c :: rest)

/-- Pop-and-emit until a `')'` is the stack top (the `'('` case of the scan);
an empty stack means the Python `op_stack[-1]` raised `IndexError`. -/
def popToRParen : List Char → Except String (List Char × List Char)
  | [] => .error "IndexError: operator stack exhausted before finding the group marker"
  | c :: rest =>
    if c = ')' then .ok ([], c :: rest)
    else do
      let (e, s) ← popToRParen rest
      .ok (c :: e, s)

/-- Per-character action of the reversed scan in `infix_to_prefix`. -/
def i2pStep (acc : List Char × List Char) (c : Char) :
    Except String (List Char × List Char) :=
  let (result, stack) := acc
  if c.isWhitespace then .ok acc
  else if c.isAlphanum then .ok (result ++ [c], stack)
  else if c = '*' then .ok (result, c :: stack)
  else if c = '.' then
    let (e, s) := popWhile (fun x => x = '*') stack
    .ok (result ++ e, c :: s)
  else if c = '|' then
    let (e, s) := popWhile (fun x => x = '.' || x = '*') stack
    .ok (result ++ e, c :: s)
  else if c = ')' then .ok (result, c :: stack)
  else if c = '(' then
    if stack.isEmpty then .error "assert op_stack"
    else do
      let (e, s) ← popToRParen stack
      match s with
      | ')' :: s2 =>
        match s2 with
        | [] => .ok (result ++ e, [])
        | op :: s3 => .ok (result ++ e ++ [op], s3)
      | _ => .error "unreachable: popToRParen stops at a group marker"
  else .error "Given regex contains an invalid character."

/-- Function `infix_to_prefix`: standardize, scan the input reversed, drain the
stack, reverse the output. -/
def infixToPrefixFn (s : List Char) : Except String (List Char) := do
  let t := standardize s
  let (res, st) ← t.reverse.foldlM i2pStep (([], []) : List Char × List Char)
  .ok (res ++ st).reverse

/-! Class `Node` and function `construct_parse_tree` of `regex_parser.py`. -/

/-- Class `Node`: `data` with optional `left` and `right` children. -/
inductive PNode where
  | mk (data : Char) (left : Option PNode) (right : Option PNode)

/-- Inner function `construct_branch`: parse the maximal valid prefix of a
prefix-form regex, returning the (possibly `None`) tree and the remainder.
Fuel makes the recursion structural; `length + 1` fuel always suffices. -/
def constructBranch : Nat → List Char → Except String (Option PNode × List Char)
  | 0, _ => .error "out of fuel"
  | _ + 1, [] => .ok (none, [])
  | fuel + 1, ch :: rest =>
    if ch.isAlphanum then .ok (some (.mk ch none none), rest)
    else if ch = '*' then do
      let (l, rem) ← constructBranch fuel rest
      .ok (some (.mk '*' l none), rem)
    else if ch = '.' || ch = '|' then do
      let (l, rem) ← constructBranch fuel rest
      let (r, rem2) ← constructBranch fuel rem
      .ok (some (.mk ch l r), rem2)
    else .error "Given input is not a suffix of a valid regex."

/-- Function `construct_parse_tree`: convert to prefix form, parse, and
discard the remainder (`tree, _ = construct_branch(regex)`). -/
def constructParseTree (s : List Char) : Except String (Option PNode) := do
  let p ← infixToPrefixFn (standardize s)
  let (t, _) ← constructBranch (p.length + 1) p
  .ok t

/-! Function `construct_NFA` (Thompson's construction) inside `construct_matcher`.
The `itertools.count()` id generator is threaded as an explicit counter. -/

/-- The alphanumeric-token branch of `construct_NFA`: two fresh states and one
character edge. -/
def leafNFA (tok : Char) (g : Nat) : NFAm :=
  { q0 := g,
    delta := ⟨{(g, some tok)}, fun k => if k = (g, some tok) then {g + 1} else ∅⟩,
    F := {g + 1} }

/-- The `'*'` branch of `construct_NFA`: add an ε-edge from every accepting state
back to the start (`setdefault`-unions written pointwise) and make the start
accepting. -/
def starNFA (N : NFAm) : NFAm :=
  { q0 := N.q0,
    delta := ⟨N.delta.keys ∪ N.F.image (fun q => (q, (none : Sym))),
              fun k => if k.1 ∈ N.F ∧ k.2 = none
                       then N.delta.get k ∪ {N.q0} else N.delta.get k⟩,
    F := N.F ∪ {N.q0} }

/-- The `'.'` branch of `construct_NFA`: merge the two transition dicts and add
ε-edges from the left accepting states to the right start. -/
def catNFA (L R : NFAm) : NFAm :=
  { q0 := L.q0,
    delta := ⟨(L.delta.merge R.delta).keys ∪ L.F.image (fun q => (q, (none : Sym))),
              fun k => if k.1 ∈ L.F ∧ k.2 = none
                       then (L.delta.merge R.delta).get k ∪ {R.q0}
                       else (L.delta.merge R.delta).get k⟩,
    F := R.F }

/-- The `'|'` branch of `construct_NFA`: a fresh start with ε-edges to both starts. -/
def altNFA (L R : NFAm) (g2 : Nat) : NFAm :=
  { q0 := g2,
    delta := (L.delta.merge R.delta).setKey (g2, none) {L.q0, R.q0},
    F := L.F ∪ R.F }

/-- Inner function `construct_NFA`: Thompson fragments per node kind; Python
`assert` failures on malformed nodes become errors. -/
def constructNFA : PNode → Nat → Except String (NFAm × Nat)
  | .mk tok l r, g =>
    if tok.isAlphanum then
      match l, r with
      | none, none => .ok (leafNFA tok g, g + 2)
      | _, _ => .error "assert: leaf node with a child"
    else if tok = '*' then
      match l, r with
      | some lt, none => (constructNFA lt g).bind (fun p => .ok (starNFA p.1, p.2))
      | _, _ => .error "assert: star node arity"
    else if tok = '.' then
      match l, r with
      | some lt, some rt =>
        (constructNFA lt g).bind (fun p =>
          (constructNFA rt p.2).bind (fun p2 => .ok (catNFA p.1 p2.1, p2.2)))
      | _, _ => .error "assert: concatenation node arity"
    else if tok = '|' then
      match l, r with
      | some lt, some rt =>
        (constructNFA lt g).bind (fun p =>
          (constructNFA rt p.2).bind (fun p2 => .ok (altNFA p.1 p2.1 p2.2, p2.2 + 1)))
      | _, _ => .error "assert: alternation node arity"
    else .error "Invalid token found in tree"

/-! Function `NFA_to_DFA` of `dfa_nfa.py`: ε-elimination then subset construction. -/

/-- The `other_start_states` of `NFA_to_eps_free_NFA`: the ε-equivalents of the
start state other than the start state itself. -/
def startEq (n : NFAm) : Finset Nat := n.epsClosure {n.q0} \ {n.q0}

/-- Inner function `NFA_to_eps_free_NFA`.  Per non-ε entry `((q, c), R)` the new
dict gains `(q, c) → closure(R)`, and also `(q0, c) → closure(R)` when `q` is an
ε-equivalent of the start; the accumulated `setdefault`-unions are written
pointwise.  `F` gains `q0` when an ε-equivalent of the start accepts (the source
performs this by mutating the *input* `F` in place). -/
def epsFreeNFA (n : NFAm) : NFAm :=
  { q0 := n.q0
    delta :=
      { keys := (n.delta.keys.filter (fun k => k.2 ≠ none)).biUnion
          (fun k => if k.1 ∈ startEq n then insert (n.q0, k.2) {k} else {k})
        get := fun k =>
          match k.2 with
          | none => ∅
          | some c =>
              n.epsClosure (n.delta.get (k.1, some c)) ∪
                (if k.1 = n.q0
                 then (startEq n).biUnion (fun p => n.epsClosure (n.delta.get (p, some c)))
                 else ∅) }
    F := if (n.F ∩ startEq n).Nonempty then insert n.q0 n.F else n.F }

/-- State of the subset-construction worklist loop in `eps_free_NFA_to_DFA`:
the fresh-id counter, the `state_origins` registry (insertion order kept),
the DFA transition entries, and the unprocessed worklist. -/
structure SubsetSt where
  nextId : Nat
  origins : List (Nat × Finset Nat)
  ddelta : List ((Nat × Char) × Nat)
  work : List Nat
deriving DecidableEq

/-- Lookup `state_origins[q]` (by id). -/
def findId (l : List (Nat × Finset Nat)) (q : Nat) : Option (Finset Nat) :=
  match l with
  | [] => none
  | (i, o) :: rest => if i = q then some o else findId rest q

/-- Lookup of an id by macro-state value (set equality), as in
`{state for state, origin in state_origins.items() if origin == T}.pop()`. -/
def findOrigin (l : List (Nat × Finset Nat)) (T : Finset Nat) : Option Nat :=
  match l with
  | [] => none
  | (i, o) :: rest => if o = T then some i else findOrigin rest T

/-- The try/except block of the subset loop: look the macro-state up by value
(`origin == next_state_origin`); on `KeyError` register it under a fresh id and
enqueue that id.  Returns the updated state and the id. -/
def registerT (st : SubsetSt) (T : Finset Nat) : SubsetSt × Nat :=
  match findOrigin st.origins T with
  | some i => (st, i)
  | none =>
    ({ st with nextId := st.nextId + 1,
               origins := st.origins ++ [(st.nextId, T)],
               work := st.work ++ [st.nextId] }, st.nextId)

/-- Body of `for ch in alphabet` while processing popped id `q` with macro-state
`qO`: compute the successor macro-state, register it if new, and record the DFA
transition; the source `assert (q, ch) not in new_delta` becomes an error. -/
def subsetChar (M : NFAm) (q : Nat) (qO : Finset Nat) (st : SubsetSt) (c : Char) :
    Except String SubsetSt :=
  if M.DeltaS qO (some c) = ∅ then .ok st
  else
    if (findD (registerT st (M.DeltaS qO (some c))).1.ddelta (q, c)).isSome then
      .error "assert (q, ch) not in new_delta"
    else
      .ok { (registerT st (M.DeltaS qO (some c))).1 with
            ddelta := (registerT st (M.DeltaS qO (some c))).1.ddelta ++
              [((q, c), (registerT st (M.DeltaS qO (some c))).2)] }

/-- The `while work_set` loop: pop an id, process every alphabet character.
Python pops an arbitrary set element; the model pops the head. -/
def subsetLoop (M : NFAm) (alpha : List Char) : Nat → SubsetSt → Except String SubsetSt
  | 0, _ => .error "out of fuel"
  | fuel + 1, st =>
    match st.work with
    | [] => .ok st
    | q :: rest => do
      let qO := (findId st.origins q).getD ∅
      let st1 ← alpha.foldlM (fun s c => subsetChar M q qO s c) { st with work := rest }
      subsetLoop M alpha fuel st1

/-- All states the subset construction can ever place in a macro-state. -/
def NFAm.stateUniv (M : NFAm) : Finset Nat := insert M.q0 M.delta.targets

/-- Fuel for the worklist loop: at most `2 ^ card + 1` distinct macro-states exist,
and each loop turn pops one worklist entry. -/
def subsetFuel (M : NFAm) : Nat := 2 * 2 ^ M.stateUniv.card + 2

/-- Alphabet characters of an ε-free NFA: `{ch for _, ch in nfa.delta}` (char keys). -/
def NFAm.alphaChars (M : NFAm) : Finset Char :=
  M.delta.keys.biUnion (fun k => match k.2 with | some c => {c} | none => (∅ : Finset Char))

/-- Enumerate a finite character set as an increasing list (a deterministic
stand-in for Python's arbitrary set iteration order); `card` fuel suffices. -/
def sortedChars : Nat → Finset Char → List Char
  | 0, _ => []
  | fuel + 1, s =>
    if h : s.Nonempty then s.min' h :: sortedChars fuel (s.erase (s.min' h)) else []

/-- The full worklist run of `eps_free_NFA_to_DFA` (initial registry `{0: {q0}}`). -/
def subsetRun (M : NFAm) : Except String SubsetSt :=
  if none ∈ M.delta.keys.image Prod.snd then .error "assert eps not in alphabet"
  else
    subsetLoop M (sortedChars M.alphaChars.card M.alphaChars) (subsetFuel M)
      ⟨1, [(0, {M.q0})], [], [0]⟩

/-- Inner function `eps_free_NFA_to_DFA`: the classical subset construction. -/
def epsFreeToDFA (M : NFAm) : Except String DFAm := do
  let st ← subsetRun M
  .ok { q0 := 0
        delta := st.ddelta
        F := ((st.origins.filter (fun p => (p.2 ∩ M.F).Nonempty)).map Prod.fst).toFinset }

/-- Function `NFA_to_DFA`. -/
def NFA_to_DFA (n : NFAm) : Except String DFAm := epsFreeToDFA (epsFreeNFA n)

/-- Function `construct_matcher` of `regex_parser.py`: parse, Thompson, determinize.
`assert tree` on a `None` parse result becomes an error. -/
def constructMatcher (s : List Char) : Except String DFAm := do
  let t? ← constructParseTree s
  match t? with
  | none => .error "assert tree"
  | some t => do
    let (N, _) ← constructNFA t 0
    NFA_to_DFA N

/-- Truthiness of a compile result (did `construct_matcher` return a matcher?). -/
def isOkB {α : Type} : Except String α → Bool
  | .ok _ => true
  | .error _ => false

/-- Compile-then-match helper: `construct_matcher(s).accepts(w)`, `false` if the
compilation raised. -/
def matcherAccepts (s w : List Char) : Bool :=
  match constructMatcher s with
  | .ok d => d.accepts w
  | .error _ => false

/-- Compile-then-match helper for `rejects`. -/
def matcherRejects (s w : List Char) : Bool :=
  match constructMatcher s with
  | .ok d => d.rejects w
  | .error _ => false

/-! Properties of `Delta` and of the ε-closure fixpoint loop. -/

theorem SetMap.mem_targets {d : SetMap} {x : Nat} {k : Nat × Sym} (hk : k ∈ d.keys)
    (hx : x ∈ d.get k) : x ∈ d.targets :=
  Finset.mem_biUnion.mpr ⟨k, hk, hx⟩

theorem NFAm.mem_DeltaS {n : NFAm} {S : Finset Nat} {c : Sym} {x : Nat} :
    x ∈ n.DeltaS S c ↔ ∃ q ∈ S, x ∈ n.delta.get (q, c) :=
  Finset.mem_biUnion

theorem NFAm.DeltaS_empty (n : NFAm) (c : Sym) : n.DeltaS ∅ c = ∅ :=
  Finset.biUnion_empty

theorem NFAm.DeltaS_mono (n : NFAm) {S T : Finset Nat} (h : S ⊆ T) (c : Sym) :
    n.DeltaS S c ⊆ n.DeltaS T c :=
  Finset.biUnion_subset_biUnion_of_subset_left _ h

theorem NFAm.DeltaS_subset_targets (n : NFAm) (hWF : n.delta.WFm) (S : Finset Nat) (c : Sym) :
    n.DeltaS S c ⊆ n.delta.targets := by
  intro x hx
  rcases NFAm.mem_DeltaS.mp hx with ⟨q, _, hget⟩
  by_cases hk : (q, c) ∈ n.delta.keys
  · exact SetMap.mem_targets hk hget
  · rw [hWF _ hk] at hget
    exact absurd hget (Finset.not_mem_empty x)

theorem NFAm.subset_epsStep (n : NFAm) (A : Finset Nat) : A ⊆ n.epsStep A :=
  Finset.subset_union_left

theorem NFAm.epsStep_subset_iff {n : NFAm} {A U : Finset Nat} :
    n.epsStep A ⊆ U ↔ A ⊆ U ∧ n.DeltaS A none ⊆ U := Finset.union_subset_iff

theorem NFAm.iter_subset_iter (n : NFAm) (S : Finset Nat) :
    ∀ i j : Nat, i ≤ j → (n.epsStep)^[i] S ⊆ (n.epsStep)^[j] S := by
  intro i j hij
  induction j with
  | zero => simp_all
  | succ j ih =>
    rcases Nat.lt_or_ge i (j + 1) with hlt | hge
    · refine (ih (Nat.lt_succ_iff.mp hlt)).trans ?_
      rw [Function.iterate_succ_apply']
      exact n.subset_epsStep _
    · have : i = j + 1 := Nat.le_antisymm hij hge
      subst this
      exact subset_rfl

theorem NFAm.subset_epsClosure (n : NFAm) (S : Finset Nat) : S ⊆ n.epsClosure S :=
  n.iter_subset_iter S 0 _ (Nat.zero_le _)

theorem NFAm.iter_subset_univ (n : NFAm) (hWF : n.delta.WFm) (S : Finset Nat) :
    ∀ k, (n.epsStep)^[k] S ⊆ S ∪ n.delta.targets := by
  intro k
  induction k with
  | zero => exact Finset.subset_union_left
  | succ k ih =>
    rw [Function.iterate_succ_apply']
    refine NFAm.epsStep_subset_iff.mpr ⟨ih, ?_⟩
    exact (n.DeltaS_subset_targets hWF _ _).trans Finset.subset_union_right

theorem NFAm.iter_stab (n : NFAm) (S : Finset Nat) {i : Nat}
    (h : (n.epsStep)^[i] S = (n.epsStep)^[i + 1] S) :
    ∀ j, i ≤ j → (n.epsStep)^[j] S = (n.epsStep)^[i] S := by
  intro j hij
  induction j with
  | zero => simp_all
  | succ j ih =>
    rcases Nat.lt_or_ge i (j + 1) with hlt | hge
    · have hj : i ≤ j := Nat.lt_succ_iff.mp hlt
      have hje := ih hj
      rw [Function.iterate_succ_apply', hje,
        ← Function.iterate_succ_apply' n.epsStep i S]
      exact h.symm
    · exact congrArg (fun m => (n.epsStep)^[m] S) (Nat.le_antisymm hge hij)

theorem NFAm.exists_iter_stab (n : NFAm) (hWF : n.delta.WFm) (S : Finset Nat) :
    ∃ i, i ≤ n.closureFuel S ∧ (n.epsStep)^[i] S = (n.epsStep)^[i + 1] S := by
  by_contra hcon
  push_neg at hcon
  have grow : ∀ m, m ≤ n.closureFuel S + 1 →
      m + S.card ≤ ((n.epsStep)^[m] S).card := by
    intro m hm
    induction m with
    | zero => simp
    | succ m ih =>
      have hm' : m ≤ n.closureFuel S := Nat.lt_succ_iff.mp hm
      have hne := hcon m hm'
      have hss : (n.epsStep)^[m] S ⊂ (n.epsStep)^[m + 1] S :=
        Finset.ssubset_iff_subset_ne.mpr ⟨n.iter_subset_iter S m (m + 1) (Nat.le_succ m), hne⟩
      have := Finset.card_lt_card hss
      have := ih (hm'.trans (Nat.le_succ _))
      omega
  have h1 := grow (n.closureFuel S + 1) le_rfl
  have h2 : ((n.epsStep)^[n.closureFuel S + 1] S).card ≤ n.closureFuel S :=
    Finset.card_le_card (n.iter_subset_univ hWF S _)
  omega

theorem NFAm.epsStep_epsClosure (n : NFAm) (hWF : n.delta.WFm) (S : Finset Nat) :
    n.epsStep (n.epsClosure S) = n.epsClosure S := by
  rcases n.exists_iter_stab hWF S with ⟨i, hi, hstab⟩
  have h1 : (n.epsStep)^[n.closureFuel S] S = (n.epsStep)^[i] S :=
    n.iter_stab S hstab _ hi
  unfold NFAm.epsClosure
  rw [h1, ← Function.iterate_succ_apply' n.epsStep i S]
  exact hstab.symm

theorem NFAm.DeltaS_epsClosure_subset (n : NFAm) (hWF : n.delta.WFm) (S : Finset Nat) :
    n.DeltaS (n.epsClosure S) none ⊆ n.epsClosure S := by
  conv_rhs => rw [← n.epsStep_epsClosure hWF S]
  exact Finset.subset_union_right

/-- One ε-edge of the NFA (`b` is an ε-successor of `a`). -/
def NFAm.epsRel (n : NFAm) (a b : Nat) : Prop := b ∈ n.delta.get (a, none)

theorem NFAm.mem_epsClosure_iff (n : NFAm) (hWF : n.delta.WFm) {S : Finset Nat} {q : Nat} :
    q ∈ n.epsClosure S ↔ ∃ p ∈ S, Relation.ReflTransGen n.epsRel p q := by
  constructor
  · have : ∀ k x, x ∈ (n.epsStep)^[k] S → ∃ p ∈ S, Relation.ReflTransGen n.epsRel p x := by
      intro k
      induction k with
      | zero => intro x hx; exact ⟨x, hx, Relation.ReflTransGen.refl⟩
      | succ k ih =>
        intro x hx
        rw [Function.iterate_succ_apply'] at hx
        rcases Finset.mem_union.mp hx with hx | hx
        · exact ih x hx
        · rcases NFAm.mem_DeltaS.mp hx with ⟨b, hb, hbx⟩
          rcases ih b hb with ⟨p, hp, hreach⟩
          exact ⟨p, hp, hreach.tail hbx⟩
    exact this _ q
  · rintro ⟨p, hp, hreach⟩
    induction hreach with
    | refl => exact n.subset_epsClosure S hp
    | tail _ hedge ih =>
      exact n.DeltaS_epsClosure_subset hWF S
        (NFAm.mem_DeltaS.mpr ⟨_, ih, hedge⟩)

theorem NFAm.epsClosure_empty (n : NFAm) : n.epsClosure ∅ = ∅ := by
  have : ∀ k, (n.epsStep)^[k] (∅ : Finset Nat) = ∅ := by
    intro k
    induction k with
    | zero => rfl
    | succ k ih =>
      rw [Function.iterate_succ_apply', ih]
      simp [NFAm.epsStep, NFAm.DeltaS_empty]
  exact this _

theorem NFAm.epsClosure_mono (n : NFAm) (hWF : n.delta.WFm) {S T : Finset Nat}
    (h : S ⊆ T) : n.epsClosure S ⊆ n.epsClosure T := by
  intro q hq
  rcases (n.mem_epsClosure_iff hWF).mp hq with ⟨p, hp, hr⟩
  exact (n.mem_epsClosure_iff hWF).mpr ⟨p, h hp, hr⟩

theorem NFAm.epsClosure_idem (n : NFAm) (hWF : n.delta.WFm) (S : Finset Nat) :
    n.epsClosure (n.epsClosure S) = n.epsClosure S := by
  apply Finset.Subset.antisymm
  · intro q hq
    rcases (n.mem_epsClosure_iff hWF).mp hq with ⟨p, hp, hr⟩
    rcases (n.mem_epsClosure_iff hWF).mp hp with ⟨p0, hp0, hr0⟩
    exact (n.mem_epsClosure_iff hWF).mpr ⟨p0, hp0, hr0.trans hr⟩
  · exact n.subset_epsClosure _

theorem NFAm.epsClosure_union (n : NFAm) (hWF : n.delta.WFm) (A B : Finset Nat) :
    n.epsClosure (A ∪ B) = n.epsClosure A ∪ n.epsClosure B := by
  ext q
  constructor
  · intro hq
    rcases (n.mem_epsClosure_iff hWF).mp hq with ⟨p, hp, hr⟩
    rcases Finset.mem_union.mp hp with hp | hp
    · exact Finset.mem_union_left _ ((n.mem_epsClosure_iff hWF).mpr ⟨p, hp, hr⟩)
    · exact Finset.mem_union_right _ ((n.mem_epsClosure_iff hWF).mpr ⟨p, hp, hr⟩)
  · intro hq
    rcases Finset.mem_union.mp hq with hq | hq
    · rcases (n.mem_epsClosure_iff hWF).mp hq with ⟨p, hp, hr⟩
      exact (n.mem_epsClosure_iff hWF).mpr ⟨p, Finset.mem_union_left _ hp, hr⟩
    · rcases (n.mem_epsClosure_iff hWF).mp hq with ⟨p, hp, hr⟩
      exact (n.mem_epsClosure_iff hWF).mpr ⟨p, Finset.mem_union_right _ hp, hr⟩

theorem NFAm.epsClosure_biUnion (n : NFAm) (hWF : n.delta.WFm) (S : Finset Nat)
    (f : Nat → Finset Nat) :
    n.epsClosure (S.biUnion f) = S.biUnion (fun x => n.epsClosure (f x)) := by
  ext q
  constructor
  · intro hq
    rcases (n.mem_epsClosure_iff hWF).mp hq with ⟨p, hp, hr⟩
    rcases Finset.mem_biUnion.mp hp with ⟨x, hx, hpx⟩
    exact Finset.mem_biUnion.mpr ⟨x, hx, (n.mem_epsClosure_iff hWF).mpr ⟨p, hpx, hr⟩⟩
  · intro hq
    rcases Finset.mem_biUnion.mp hq with ⟨x, hx, hqx⟩
    rcases (n.mem_epsClosure_iff hWF).mp hqx with ⟨p, hpx, hr⟩
    exact (n.mem_epsClosure_iff hWF).mpr ⟨p, Finset.mem_biUnion.mpr ⟨x, hx, hpx⟩, hr⟩

theorem NFAm.run_nil (n : NFAm) : n.run [] = n.epsClosure {n.q0} := rfl

theorem NFAm.run_append_singleton (n : NFAm) (w : List Char) (c : Char) :
    n.run (w ++ [c]) = n.epsClosure (n.DeltaS (n.run w) (some c)) := by
  unfold NFAm.run
  rw [List.foldl_append]
  rfl

theorem NFAm.epsClosure_eq_self_of_no_eps (n : NFAm)
    (h : ∀ q, n.delta.get (q, none) = ∅) (S : Finset Nat) : n.epsClosure S = S := by
  have hstep : ∀ A, n.epsStep A = A := by
    intro A
    have : n.DeltaS A none = ∅ := by
      apply Finset.eq_empty_of_forall_not_mem
      intro x hx
      rcases NFAm.mem_DeltaS.mp hx with ⟨p, _, hget⟩
      rw [h p] at hget
      exact absurd hget (Finset.not_mem_empty x)
    simp [NFAm.epsStep, this]
  have : ∀ k, (n.epsStep)^[k] S = S := by
    intro k
    induction k with
    | zero => rfl
    | succ k ih => rw [Function.iterate_succ_apply', ih, hstep]
  exact this _

/-! Correctness of the ε-elimination phase (`NFA_to_eps_free_NFA`). -/

theorem epsFree_get_none (n : NFAm) (q : Nat) :
    (epsFreeNFA n).delta.get (q, none) = ∅ := rfl

theorem epsFree_get_char (n : NFAm) (q : Nat) (c : Char) :
    (epsFreeNFA n).delta.get (q, some c) =
      n.epsClosure (n.delta.get (q, some c)) ∪
        (if q = n.q0
         then (startEq n).biUnion (fun p => n.epsClosure (n.delta.get (p, some c)))
         else ∅) := rfl

theorem epsFree_closure_eq (n : NFAm) (S : Finset Nat) :
    (epsFreeNFA n).epsClosure S = S :=
  (epsFreeNFA n).epsClosure_eq_self_of_no_eps (fun q => epsFree_get_none n q) S

theorem mem_startEq_subset (n : NFAm) : startEq n ⊆ n.epsClosure {n.q0} :=
  Finset.sdiff_subset

theorem insert_q0_startEq (n : NFAm) :
    insert n.q0 (startEq n) = n.epsClosure {n.q0} := by
  have hq0 : ({n.q0} : Finset Nat) ⊆ n.epsClosure {n.q0} :=
    n.subset_epsClosure {n.q0}
  have := Finset.union_sdiff_of_subset hq0
  rw [← this]
  rw [Finset.insert_eq]
  rfl

/-- Stepping the ε-free NFA from an ε-closed state set agrees with
closing the step of the original NFA. -/
theorem epsFree_DeltaS_closed (n : NFAm) (hWF : n.delta.WFm) {T : Finset Nat}
    (hT : n.epsClosure T = T) (c : Char) :
    (epsFreeNFA n).DeltaS T (some c) = n.epsClosure (n.DeltaS T (some c)) := by
  have hrhs : n.epsClosure (n.DeltaS T (some c)) =
      T.biUnion (fun q => n.epsClosure (n.delta.get (q, some c))) :=
    n.epsClosure_biUnion hWF T _
  rw [hrhs]
  apply Finset.Subset.antisymm
  · intro x hx
    rcases NFAm.mem_DeltaS.mp hx with ⟨q, hq, hget⟩
    rw [epsFree_get_char] at hget
    rcases Finset.mem_union.mp hget with hget | hget
    · exact Finset.mem_biUnion.mpr ⟨q, hq, hget⟩
    · by_cases hq0 : q = n.q0
      · rw [if_pos hq0] at hget
        rcases Finset.mem_biUnion.mp hget with ⟨p, hp, hpx⟩
        have hsub : ({n.q0} : Finset Nat) ⊆ T := by
          intro y hy
          rw [Finset.mem_singleton.mp hy, ← hq0]
          exact hq
        have h1 : n.epsClosure {n.q0} ⊆ n.epsClosure T := n.epsClosure_mono hWF hsub
        rw [hT] at h1
        exact Finset.mem_biUnion.mpr ⟨p, h1 (mem_startEq_subset n hp), hpx⟩
      · rw [if_neg hq0] at hget
        exact absurd hget (Finset.not_mem_empty x)
  · intro x hx
    rcases Finset.mem_biUnion.mp hx with ⟨q, hq, hget⟩
    refine NFAm.mem_DeltaS.mpr ⟨q, hq, ?_⟩
    rw [epsFree_get_char]
    exact Finset.mem_union_left _ hget

/-- Stepping the ε-free NFA from its start singleton agrees with
stepping the original NFA from the closed start. -/
theorem epsFree_DeltaS_start (n : NFAm) (hWF : n.delta.WFm) (c : Char) :
    (epsFreeNFA n).DeltaS {n.q0} (some c) =
      n.epsClosure (n.DeltaS (n.epsClosure {n.q0}) (some c)) := by
  have hrhs : n.epsClosure (n.DeltaS (n.epsClosure {n.q0}) (some c)) =
      (n.epsClosure {n.q0}).biUnion (fun q => n.epsClosure (n.delta.get (q, some c))) :=
    n.epsClosure_biUnion hWF _ _
  have hsplit : (n.epsClosure {n.q0}).biUnion
        (fun q => n.epsClosure (n.delta.get (q, some c))) =
      n.epsClosure (n.delta.get (n.q0, some c)) ∪
        (startEq n).biUnion (fun p => n.epsClosure (n.delta.get (p, some c))) := by
    rw [← insert_q0_startEq n, Finset.biUnion_insert]
  have hlhs : (epsFreeNFA n).DeltaS {n.q0} (some c) =
      (epsFreeNFA n).delta.get (n.q0, some c) := Finset.singleton_biUnion
  rw [hlhs, epsFree_get_char, if_pos rfl, hrhs, hsplit]

/-- The state set reached by the original NFA is always ε-closed. -/
theorem run_closed (n : NFAm) (hWF : n.delta.WFm) (w : List Char) :
    n.epsClosure (n.run w) = n.run w := by
  induction w using List.reverseRecOn with
  | nil => rw [NFAm.run_nil]; exact n.epsClosure_idem hWF _
  | append_singleton w c _ => rw [NFAm.run_append_singleton]; exact n.epsClosure_idem hWF _

/-- The ε-free NFA run is the `DeltaS`-fold from the start singleton. -/
theorem epsFree_run_eq_fold (n : NFAm) (w : List Char) :
    (epsFreeNFA n).run w =
      w.foldl (fun S c => (epsFreeNFA n).DeltaS S (some c)) {n.q0} := by
  unfold NFAm.run
  have hf : (fun S c => (epsFreeNFA n).epsClosure ((epsFreeNFA n).DeltaS S (some c))) =
      (fun S c => (epsFreeNFA n).DeltaS S (some c)) := by
    funext S c
    exact epsFree_closure_eq n _
  rw [hf, epsFree_closure_eq n]
  rfl

theorem epsFree_run_append_singleton (n : NFAm) (w : List Char) (c : Char) :
    (epsFreeNFA n).run (w ++ [c]) =
      (epsFreeNFA n).DeltaS ((epsFreeNFA n).run w) (some c) := by
  rw [epsFree_run_eq_fold, epsFree_run_eq_fold, List.foldl_append]
  rfl

/-- On every nonempty word the ε-free NFA reaches exactly the state set of the
original NFA. -/
theorem epsFree_run_eq (n : NFAm) (hWF : n.delta.WFm) :
    ∀ (w : List Char) (c : Char), (epsFreeNFA n).run (w ++ [c]) = n.run (w ++ [c]) := by
  intro w
  induction w using List.reverseRecOn with
  | nil =>
    intro c
    have h0 : (epsFreeNFA n).run [] = {n.q0} := by
      rw [NFAm.run_nil, epsFree_closure_eq n]
      rfl
    rw [epsFree_run_append_singleton n [] c, h0, NFAm.run_append_singleton n [] c,
      NFAm.run_nil]
    exact epsFree_DeltaS_start n hWF c
  | append_singleton u b ih =>
    intro c
    rw [epsFree_run_append_singleton n (u ++ [b]) c, ih b,
      NFAm.run_append_singleton n (u ++ [b]) c]
    exact epsFree_DeltaS_closed n hWF (run_closed n hWF (u ++ [b])) c

theorem singleton_inter_nonempty_iff {a : Nat} {s : Finset Nat} :
    (({a} : Finset Nat) ∩ s).Nonempty ↔ a ∈ s := by
  constructor
  · rintro ⟨x, hx⟩
    rcases Finset.mem_inter.mp hx with ⟨hx1, hx2⟩
    rw [← Finset.mem_singleton.mp hx1]
    exact hx2
  · intro h
    exact ⟨a, Finset.mem_inter.mpr ⟨Finset.mem_singleton_self a, h⟩⟩

theorem union_nonempty_iff {s t : Finset Nat} :
    (s ∪ t).Nonempty ↔ s.Nonempty ∨ t.Nonempty := by
  constructor
  · rintro ⟨x, hx⟩
    rcases Finset.mem_union.mp hx with hx | hx
    · exact Or.inl ⟨x, hx⟩
    · exact Or.inr ⟨x, hx⟩
  · rintro (⟨x, hx⟩ | ⟨x, hx⟩)
    · exact ⟨x, Finset.mem_union_left _ hx⟩
    · exact ⟨x, Finset.mem_union_right _ hx⟩

/-- Acceptance transfer between `F` and the possibly `q0`-augmented `F` on an
ε-closed state set. -/
theorem epsFree_F_inter (n : NFAm) (hWF : n.delta.WFm) {T : Finset Nat}
    (hT : n.epsClosure T = T) :
    (T ∩ (epsFreeNFA n).F).Nonempty ↔ (T ∩ n.F).Nonempty := by
  show (T ∩ (if (n.F ∩ startEq n).Nonempty then insert n.q0 n.F else n.F)).Nonempty ↔ _
  split_ifs with hcond
  · constructor
    · rintro ⟨x, hx⟩
      rcases Finset.mem_inter.mp hx with ⟨hxT, hxF⟩
      rcases Finset.mem_insert.mp hxF with hx0 | hxF
      · subst hx0
        rcases hcond with ⟨y, hy⟩
        rcases Finset.mem_inter.mp hy with ⟨hyF, hyo⟩
        have hyT : y ∈ T := by
          have h1 : ({n.q0} : Finset Nat) ⊆ T := Finset.singleton_subset_iff.mpr hxT
          have h2 : n.epsClosure {n.q0} ⊆ T := by
            rw [← hT]; exact n.epsClosure_mono hWF h1
          exact h2 (mem_startEq_subset n hyo)
        exact ⟨y, Finset.mem_inter.mpr ⟨hyT, hyF⟩⟩
      · exact ⟨x, Finset.mem_inter.mpr ⟨hxT, hxF⟩⟩
    · rintro ⟨x, hx⟩
      rcases Finset.mem_inter.mp hx with ⟨hxT, hxF⟩
      exact ⟨x, Finset.mem_inter.mpr ⟨hxT, Finset.mem_insert_of_mem hxF⟩⟩
  · exact Iff.rfl

/-- Equivalence of the ε-free NFA with its source NFA, word by word. -/
theorem epsFree_accepts_eq (n : NFAm) (hWF : n.delta.WFm) (w : List Char) :
    (epsFreeNFA n).accepts w = n.accepts w := by
  unfold NFAm.accepts
  rw [decide_eq_decide]
  rcases List.eq_nil_or_concat w with hw | ⟨u, c, hw⟩
  · subst hw
    have hM : (epsFreeNFA n).run [] = {n.q0} := by
      rw [NFAm.run_nil, epsFree_closure_eq n]
      rfl
    have hN : n.run [] = n.epsClosure {n.q0} := NFAm.run_nil n
    rw [hM, hN]
    have hMF : (({n.q0} : Finset Nat) ∩ (epsFreeNFA n).F).Nonempty ↔
        n.q0 ∈ (epsFreeNFA n).F := singleton_inter_nonempty_iff
    rw [hMF]
    show n.q0 ∈ (if (n.F ∩ startEq n).Nonempty then insert n.q0 n.F else n.F) ↔ _
    have hsplitN : n.epsClosure {n.q0} ∩ n.F =
        ({n.q0} ∩ n.F) ∪ (startEq n ∩ n.F) := by
      rw [← insert_q0_startEq n, Finset.insert_eq, Finset.union_inter_distrib_right]
    rw [hsplitN]
    rw [union_nonempty_iff, singleton_inter_nonempty_iff]
    split_ifs with hcond
    · constructor
      · intro _
        rcases hcond with ⟨y, hy⟩
        rcases Finset.mem_inter.mp hy with ⟨hyF, hyo⟩
        exact Or.inr ⟨y, Finset.mem_inter.mpr ⟨hyo, hyF⟩⟩
      · intro _
        exact Finset.mem_insert_self _ _
    · constructor
      · intro h; exact Or.inl h
      · rintro (h | ⟨x, hx⟩)
        · exact h
        · rcases Finset.mem_inter.mp hx with ⟨hxo, hxF⟩
          exact absurd ⟨x, Finset.mem_inter.mpr ⟨hxF, hxo⟩⟩ hcond
  · subst hw
    rw [List.concat_eq_append, epsFree_run_eq n hWF u c]
    exact epsFree_F_inter n hWF (run_closed n hWF (u ++ [c]))

/-! Structural facts about the ε-free NFA's key set (needed to feed it to the
subset construction). -/

theorem epsFree_keys_snd {n : NFAm} {k : Nat × Sym} (hk : k ∈ (epsFreeNFA n).delta.keys) :
    ∃ k2 ∈ n.delta.keys.filter (fun e => e.2 ≠ none), k.2 = k2.2 ∧
      (k = k2 ∨ k = (n.q0, k2.2)) := by
  rcases Finset.mem_biUnion.mp hk with ⟨k2, hk2, hmem⟩
  refine ⟨k2, hk2, ?_⟩
  by_cases ho : k2.1 ∈ startEq n
  · rw [if_pos ho] at hmem
    rcases Finset.mem_insert.mp hmem with h | h
    · subst h; exact ⟨rfl, Or.inr rfl⟩
    · rw [Finset.mem_singleton.mp h]; exact ⟨rfl, Or.inl rfl⟩
  · rw [if_neg ho] at hmem
    rw [Finset.mem_singleton.mp hmem]
    exact ⟨rfl, Or.inl rfl⟩

theorem epsFree_no_none_key (n : NFAm) :
    none ∉ (epsFreeNFA n).delta.keys.image Prod.snd := by
  intro hmem
  rcases Finset.mem_image.mp hmem with ⟨k, hk, hsnd⟩
  rcases epsFree_keys_snd hk with ⟨k2, hk2, hs, _⟩
  have := (Finset.mem_filter.mp hk2).2
  rw [← hs, hsnd] at this
  exact this rfl

theorem epsFree_keys_of_base {n : NFAm} {k : Nat × Sym}
    (hk : k ∈ n.delta.keys) (hne : k.2 ≠ none) : k ∈ (epsFreeNFA n).delta.keys := by
  refine Finset.mem_biUnion.mpr ⟨k, Finset.mem_filter.mpr ⟨hk, hne⟩, ?_⟩
  by_cases ho : k.1 ∈ startEq n
  · rw [if_pos ho]; exact Finset.mem_insert_of_mem (Finset.mem_singleton_self k)
  · rw [if_neg ho]; exact Finset.mem_singleton_self k

theorem epsFree_keys_of_startEq {n : NFAm} {p : Nat} {s : Sym}
    (hk : (p, s) ∈ n.delta.keys) (hne : s ≠ none) (hp : p ∈ startEq n) :
    (n.q0, s) ∈ (epsFreeNFA n).delta.keys := by
  refine Finset.mem_biUnion.mpr ⟨(p, s), Finset.mem_filter.mpr ⟨hk, hne⟩, ?_⟩
  rw [if_pos hp]
  exact Finset.mem_insert_self _ _

theorem epsFree_WF (n : NFAm) (hWF : n.delta.WFm) : (epsFreeNFA n).delta.WFm := by
  rintro ⟨q, s⟩ hk
  match s with
  | none => exact epsFree_get_none n q
  | some c =>
    rw [epsFree_get_char]
    have hbase : n.delta.get (q, some c) = ∅ := by
      by_cases hin : (q, some c) ∈ n.delta.keys
      · exact absurd (epsFree_keys_of_base hin (by simp)) hk
      · exact hWF _ hin
    rw [hbase, NFAm.epsClosure_empty]
    by_cases hq0 : q = n.q0
    · rw [if_pos hq0]
      have : ∀ p ∈ startEq n, n.epsClosure (n.delta.get (p, some c)) = ∅ := by
        intro p hp
        by_cases hin : (p, some c) ∈ n.delta.keys
        · subst hq0
          exact absurd (epsFree_keys_of_startEq hin (by simp) hp) hk
        · rw [hWF _ hin, NFAm.epsClosure_empty]
      apply Finset.eq_empty_of_forall_not_mem
      intro x hx
      rcases Finset.mem_union.mp hx with hx | hx
      · exact absurd hx (Finset.not_mem_empty x)
      · rcases Finset.mem_biUnion.mp hx with ⟨p, hp, hpx⟩
        rw [this p hp] at hpx
        exact absurd hpx (Finset.not_mem_empty x)
    · rw [if_neg hq0]
      simp

/-! Helper lemmas on the lookup functions of the subset construction. -/

theorem findD_append (l1 l2 : List ((Nat × Char) × Nat)) (k : Nat × Char) :
    findD (l1 ++ l2) k =
      match findD l1 k with
      | some v => some v
      | none => findD l2 k := by
  induction l1 with
  | nil => rfl
  | cons e rest ih =>
    rcases e with ⟨k2, v⟩
    show (if k2 = k then some v else findD (rest ++ l2) k) =
      match (if k2 = k then some v else findD rest k) with
      | some v => some v
      | none => findD l2 k
    by_cases he : k2 = k
    · rw [if_pos he, if_pos he]
    · rw [if_neg he, if_neg he]
      exact ih

theorem findD_eq_none_iff (l : List ((Nat × Char) × Nat)) (k : Nat × Char) :
    findD l k = none ↔ ∀ e ∈ l, e.1 ≠ k := by
  induction l with
  | nil => simp [findD]
  | cons e rest ih =>
    by_cases he : e.1 = k
    · simp only [findD, if_pos he]
      constructor
      · intro h; exact absurd h (by simp)
      · intro h; exact absurd he (h e (by simp))
    · simp only [findD, if_neg he]
      rw [ih]
      constructor
      · intro h e2 he2
        rcases List.mem_cons.mp he2 with h2 | h2
        · subst h2; exact he
        · exact h e2 h2
      · intro h e2 he2
        exact h e2 (List.mem_cons_of_mem _ he2)

theorem findD_some_mem {l : List ((Nat × Char) × Nat)} {k : Nat × Char} {j : Nat}
    (h : findD l k = some j) : (k, j) ∈ l := by
  induction l with
  | nil => exact absurd h (by simp [findD])
  | cons e rest ih =>
    by_cases he : e.1 = k
    · simp only [findD, if_pos he] at h
      have : e = (k, j) := by
        rcases e with ⟨k2, v2⟩
        simp only at he
        simp only [Option.some.injEq] at h
        rw [he, h]
      rw [← this]
      exact List.mem_cons_self e rest
    · simp only [findD, if_neg he] at h
      exact List.mem_cons_of_mem _ (ih h)

theorem findId_some_of_mem {l : List (Nat × Finset Nat)} {q : Nat} {O : Finset Nat}
    (hmem : (q, O) ∈ l) (hnd : (l.map Prod.fst).Nodup) : findId l q = some O := by
  induction l with
  | nil => exact absurd hmem (by simp)
  | cons e rest ih =>
    rcases e with ⟨i, o⟩
    rw [List.map_cons, List.nodup_cons] at hnd
    show (if i = q then some o else findId rest q) = some O
    by_cases hi : i = q
    · rw [if_pos hi]
      rcases List.mem_cons.mp hmem with h | h
      · have h2 := (Prod.mk.injEq _ _ _ _).mp h
        rw [h2.2]
      · subst hi
        exact absurd (List.mem_map.mpr ⟨(i, O), h, rfl⟩) hnd.1
    · rw [if_neg hi]
      rcases List.mem_cons.mp hmem with h | h
      · have h2 := (Prod.mk.injEq _ _ _ _).mp h
        exact absurd h2.1.symm hi
      · exact ih h hnd.2

theorem findOrigin_some_mem {l : List (Nat × Finset Nat)} {T : Finset Nat} {i : Nat}
    (h : findOrigin l T = some i) : (i, T) ∈ l := by
  induction l with
  | nil => exact absurd h (by simp [findOrigin])
  | cons e rest ih =>
    rcases e with ⟨i2, o2⟩
    by_cases ho : o2 = T
    · simp only [findOrigin, if_pos ho] at h
      rw [← Option.some.injEq _ _ |>.mp h, ← ho]
      exact List.mem_cons_self _ _
    · simp only [findOrigin, if_neg ho] at h
      exact List.mem_cons_of_mem _ (ih h)

theorem findOrigin_none {l : List (Nat × Finset Nat)} {T : Finset Nat}
    (h : findOrigin l T = none) : ∀ p ∈ l, p.2 ≠ T := by
  induction l with
  | nil => intro p hp; exact absurd hp (by simp)
  | cons e rest ih =>
    rcases e with ⟨i2, o2⟩
    by_cases ho : o2 = T
    · simp only [findOrigin, if_pos ho] at h
      exact absurd h (by simp)
    · simp only [findOrigin, if_neg ho] at h
      intro p hp
      rcases List.mem_cons.mp hp with h2 | h2
      · rw [h2]; exact ho
      · exact ih h p h2

theorem mem_origins_unique {l : List (Nat × Finset Nat)} {q : Nat} {O1 O2 : Finset Nat}
    (hnd : (l.map Prod.fst).Nodup) (h1 : (q, O1) ∈ l) (h2 : (q, O2) ∈ l) : O1 = O2 := by
  have e1 := findId_some_of_mem h1 hnd
  have e2 := findId_some_of_mem h2 hnd
  rw [e1] at e2
  exact Option.some.injEq _ _ |>.mp e2

/-! Enumeration of the alphabet character set. -/

theorem sortedChars_subset : ∀ (fuel : Nat) (s : Finset Char) (c : Char),
    c ∈ sortedChars fuel s → c ∈ s := by
  intro fuel
  induction fuel with
  | zero => intro s c h; exact absurd h (by simp [sortedChars])
  | succ fuel ih =>
    intro s c h
    unfold sortedChars at h
    split_ifs at h with hne
    · rcases List.mem_cons.mp h with h | h
      · rw [h]; exact s.min'_mem hne
      · exact Finset.mem_of_mem_erase (ih _ _ h)
    · exact absurd h (by simp)

theorem sortedChars_nodup : ∀ (fuel : Nat) (s : Finset Char),
    (sortedChars fuel s).Nodup := by
  intro fuel
  induction fuel with
  | zero => intro s; simp [sortedChars]
  | succ fuel ih =>
    intro s
    unfold sortedChars
    split_ifs with hne
    · refine List.nodup_cons.mpr ⟨?_, ih _⟩
      intro hmem
      exact absurd (sortedChars_subset _ _ _ hmem) (Finset.not_mem_erase _ _)
    · simp

theorem sortedChars_mem : ∀ (fuel : Nat) (s : Finset Char), s.card ≤ fuel →
    ∀ c ∈ s, c ∈ sortedChars fuel s := by
  intro fuel
  induction fuel with
  | zero =>
    intro s hcard c hc
    rw [Nat.le_zero, Finset.card_eq_zero] at hcard
    subst hcard
    exact absurd hc (Finset.not_mem_empty c)
  | succ fuel ih =>
    intro s hcard c hc
    have hne : s.Nonempty := ⟨c, hc⟩
    unfold sortedChars
    rw [dif_pos hne]
    by_cases hcm : c = s.min' hne
    · rw [hcm]; exact List.mem_cons_self _ _
    · refine List.mem_cons_of_mem _ (ih _ ?_ c (Finset.mem_erase.mpr ⟨hcm, hc⟩))
      rw [Finset.card_erase_of_mem (s.min'_mem hne)]
      omega

theorem mem_alphaChars {M : NFAm} {c : Char} :
    c ∈ M.alphaChars ↔ ∃ q, (q, some c) ∈ M.delta.keys := by
  constructor
  · intro h
    rcases Finset.mem_biUnion.mp h with ⟨k, hk, hmem⟩
    rcases k with ⟨q, s⟩
    match s with
    | none => exact absurd hmem (Finset.not_mem_empty c)
    | some c2 =>
      have : c = c2 := Finset.mem_singleton.mp hmem
      subst this
      exact ⟨q, hk⟩
  · rintro ⟨q, hq⟩
    exact Finset.mem_biUnion.mpr ⟨(q, some c), hq, Finset.mem_singleton_self c⟩

theorem DeltaS_empty_of_not_alpha {M : NFAm} (hWF : M.delta.WFm) {c : Char}
    (hc : c ∉ M.alphaChars) (S : Finset Nat) : M.DeltaS S (some c) = ∅ := by
  apply Finset.eq_empty_of_forall_not_mem
  intro x hx
  rcases NFAm.mem_DeltaS.mp hx with ⟨q, _, hget⟩
  by_cases hk : (q, some c) ∈ M.delta.keys
  · exact hc (mem_alphaChars.mpr ⟨q, hk⟩)
  · rw [hWF _ hk] at hget
    exact absurd hget (Finset.not_mem_empty x)

theorem foldl_DeltaS_from_empty (M : NFAm) :
    ∀ w : List Char, w.foldl (fun S c => M.DeltaS S (some c)) ∅ = ∅ := by
  intro w
  induction w with
  | nil => rfl
  | cons c cs ih =>
    show (c :: cs).foldl (fun S c => M.DeltaS S (some c)) ∅ = ∅
    rw [List.foldl_cons, M.DeltaS_empty]
    exact ih

/-! Invariants of the subset-construction worklist loop. -/

/-- The `state_origins` registry is well formed: distinct ids, pairwise
set-unequal macro-states (all inside the state universe, below the counter),
and the start entry is present. -/
def OriginsOK (M : NFAm) (st : SubsetSt) : Prop :=
  (st.origins.map Prod.fst).Nodup ∧
  (st.origins.map Prod.snd).Nodup ∧
  (∀ p ∈ st.origins, p.1 < st.nextId ∧ p.2 ⊆ M.stateUniv) ∧
  (0, {M.q0}) ∈ st.origins

/-- The worklist holds registered ids, each at most once. -/
def WorkOK (st : SubsetSt) : Prop :=
  st.work.Nodup ∧ ∀ q ∈ st.work, ∃ O, (q, O) ∈ st.origins

/-- Every recorded DFA transition has a unique key, an alphabet character,
a fully processed source id, and a target registered at exactly the
macro-state successor of its source. -/
def EdgesOK (M : NFAm) (alpha : List Char) (st : SubsetSt) : Prop :=
  (st.ddelta.map Prod.fst).Nodup ∧
  ∀ k j, (k, j) ∈ st.ddelta →
    k.2 ∈ alpha ∧ k.1 ∉ st.work ∧
    ∃ O Oj, (k.1, O) ∈ st.origins ∧ (j, Oj) ∈ st.origins ∧ Oj = M.DeltaS O (some k.2)

/-- Id `q` (with macro-state `O`) has been fully processed for character `c`. -/
def Done1 (M : NFAm) (st : SubsetSt) (q : Nat) (O : Finset Nat) (c : Char) : Prop :=
  if M.DeltaS O (some c) = ∅
  then findD st.ddelta (q, c) = none
  else ∃ j, findD st.ddelta (q, c) = some j

/-- What one `subsetChar` call guarantees relative to its pre-state. -/
structure CharStep (M : NFAm) (alpha : List Char) (q : Nat) (qO : Finset Nat)
    (c : Char) (st st' : SubsetSt) : Prop where
  hOr : OriginsOK M st'
  hWk : WorkOK st'
  hEd : EdgesOK M alpha st'
  hmemq : (q, qO) ∈ st'.origins
  hqnw : q ∉ st'.work
  hframe : ∀ k2 : Nat × Char, k2 ≠ (q, c) → findD st'.ddelta k2 = findD st.ddelta k2
  horig : ∀ p ∈ st.origins, p ∈ st'.origins
  hwork : ∀ x ∈ st.work, x ∈ st'.work
  hproc : ∀ q2 O2, (q2, O2) ∈ st.origins → q2 ∉ st.work → q2 ∉ st'.work
  hnew : ∀ p ∈ st'.origins, p ∈ st.origins ∨ p.1 ∈ st'.work
  hlen : st'.origins.length + st.work.length = st.origins.length + st'.work.length
  hmono : st.origins.length ≤ st'.origins.length
  hdone : Done1 M st' q qO c

theorem registerT_spec (M : NFAm) (st : SubsetSt) (T : Finset Nat)
    (hOr : OriginsOK M st) (hWk : WorkOK st) (hsub : T ⊆ M.stateUniv) :
    (registerT st T).1.ddelta = st.ddelta ∧
    ((registerT st T).2, T) ∈ (registerT st T).1.origins ∧
    OriginsOK M (registerT st T).1 ∧
    WorkOK (registerT st T).1 ∧
    (∀ p ∈ st.origins, p ∈ (registerT st T).1.origins) ∧
    (∀ x ∈ st.work, x ∈ (registerT st T).1.work) ∧
    (∀ q2 O2, (q2, O2) ∈ st.origins → q2 ∉ st.work → q2 ∉ (registerT st T).1.work) ∧
    (∀ p ∈ (registerT st T).1.origins, p ∈ st.origins ∨ p.1 ∈ (registerT st T).1.work) ∧
    ((registerT st T).1.origins.length + st.work.length =
      st.origins.length + (registerT st T).1.work.length) ∧
    st.origins.length ≤ (registerT st T).1.origins.length := by
  obtain ⟨hids, hvals, hbnd, hstart⟩ := hOr
  obtain ⟨hwnd, hwsub⟩ := hWk
  cases hfo : findOrigin st.origins T with
  | some i =>
    have hmem : (i, T) ∈ st.origins := findOrigin_some_mem hfo
    have hreg : registerT st T = (st, i) := by
      unfold registerT
      rw [hfo]
    rw [hreg]
    refine ⟨rfl, hmem, ⟨hids, hvals, hbnd, hstart⟩, ⟨hwnd, hwsub⟩, ?_, ?_, ?_, ?_, ?_, ?_⟩
    · intro p hp; exact hp
    · intro x hx; exact hx
    · intro q2 O2 _ h; exact h
    · intro p hp; exact Or.inl hp
    · rfl
    · exact le_rfl
  | none =>
    have hTnew : ∀ p ∈ st.origins, p.2 ≠ T := findOrigin_none hfo
    have hreg : registerT st T =
        ({ st with nextId := st.nextId + 1,
                   origins := st.origins ++ [(st.nextId, T)],
                   work := st.work ++ [st.nextId] }, st.nextId) := by
      unfold registerT
      rw [hfo]
    rw [hreg]
    dsimp only
    have hidfresh : st.nextId ∉ st.origins.map Prod.fst := by
      intro hmem
      rcases List.mem_map.mp hmem with ⟨p, hp, hfst⟩
      have := (hbnd p hp).1
      omega
    have hworkfresh : st.nextId ∉ st.work := by
      intro hmem
      rcases hwsub _ hmem with ⟨O, hO⟩
      have := (hbnd _ hO).1
      omega
    refine ⟨rfl, ?_, ⟨?_, ?_, ?_, ?_⟩, ⟨?_, ?_⟩, ?_, ?_, ?_, ?_, ?_, ?_⟩
    · exact List.mem_append_right _ (List.mem_singleton_self _)
    · rw [List.map_append, List.nodup_append]
      exact ⟨hids, by simp, by
        intro a ha hb
        simp only [List.map_cons, List.map_nil, List.mem_singleton] at hb
        subst hb
        exact hidfresh ha⟩
    · rw [List.map_append, List.nodup_append]
      refine ⟨hvals, by simp, ?_⟩
      intro a ha hb
      simp only [List.map_cons, List.map_nil, List.mem_singleton] at hb
      subst hb
      rcases List.mem_map.mp ha with ⟨p, hp, hsnd⟩
      exact hTnew p hp hsnd
    · intro p hp
      rcases List.mem_append.mp hp with hp | hp
      · have := hbnd p hp
        exact ⟨Nat.lt_succ_of_lt this.1, this.2⟩
      · rw [List.mem_singleton.mp hp]
        exact ⟨Nat.lt_succ_self _, hsub⟩
    · exact List.mem_append_left _ hstart
    · rw [List.nodup_append]
      refine ⟨hwnd, by simp, ?_⟩
      intro a ha hb
      simp only [List.mem_singleton] at hb
      subst hb
      exact hworkfresh ha
    · intro x hx
      rcases List.mem_append.mp hx with hx | hx
      · rcases hwsub _ hx with ⟨O, hO⟩
        exact ⟨O, List.mem_append_left _ hO⟩
      · rw [List.mem_singleton.mp hx]
        exact ⟨T, List.mem_append_right _ (List.mem_singleton_self _)⟩
    · intro p hp; exact List.mem_append_left _ hp
    · intro x hx; exact List.mem_append_left _ hx
    · intro q2 O2 hq2 hnw hmem
      rcases List.mem_append.mp hmem with h | h
      · exact hnw h
      · rw [List.mem_singleton.mp h] at hq2
        have := (hbnd _ hq2).1
        omega
    · intro p hp
      rcases List.mem_append.mp hp with hp | hp
      · exact Or.inl hp
      · rw [List.mem_singleton.mp hp]
        exact Or.inr (List.mem_append_right _ (List.mem_singleton_self _))
    · simp only [List.length_append, List.length_singleton]
      omega
    · simp only [List.length_append, List.length_singleton]
      omega

theorem subsetChar_ok (M : NFAm) (alpha : List Char) (q : Nat) (qO : Finset Nat)
    (st : SubsetSt) (c : Char)
    (hWFM : M.delta.WFm)
    (hOr : OriginsOK M st) (hWk : WorkOK st) (hEd : EdgesOK M alpha st)
    (hqO : (q, qO) ∈ st.origins) (hqnw : q ∉ st.work)
    (hcα : c ∈ alpha)
    (hnone : findD st.ddelta (q, c) = none) :
    ∃ st', subsetChar M q qO st c = .ok st' ∧ CharStep M alpha q qO c st st' := by
  by_cases hT : M.DeltaS qO (some c) = ∅
  · refine ⟨st, by unfold subsetChar; rw [if_pos hT], ?_⟩
    refine ⟨hOr, hWk, hEd, hqO, hqnw, fun _ _ => rfl, fun p hp => hp, fun x hx => hx,
      fun _ _ _ h => h, fun p hp => Or.inl hp, rfl, le_rfl, ?_⟩
    rw [Done1, if_pos hT]
    exact hnone
  · have hsub : M.DeltaS qO (some c) ⊆ M.stateUniv :=
      (M.DeltaS_subset_targets hWFM qO (some c)).trans (Finset.subset_insert _ _)
    obtain ⟨hdd, hmemT, hOr1, hWk1, horig1, hwork1, hproc1, hnew1, hlen1, hmono1⟩ :=
      registerT_spec M st (M.DeltaS qO (some c)) hOr hWk hsub
    set st1 := (registerT st (M.DeltaS qO (some c))).1 with hst1
    set i := (registerT st (M.DeltaS qO (some c))).2 with hi
    have hnone1 : findD st1.ddelta (q, c) = none := by rw [hdd]; exact hnone
    have hns : (findD st1.ddelta (q, c)).isSome = false := by rw [hnone1]; rfl
    refine ⟨{ st1 with ddelta := st1.ddelta ++ [((q, c), i)] }, ?_, ?_⟩
    · unfold subsetChar
      rw [if_neg hT, ← hst1, ← hi, hns]
      rfl
    · have hqO1 : (q, qO) ∈ st1.origins := horig1 _ hqO
      have hqnw1 : q ∉ st1.work := hproc1 q qO hqO hqnw
      have hfr : ∀ k2 : Nat × Char, k2 ≠ (q, c) →
          findD (st1.ddelta ++ [((q, c), i)]) k2 = findD st.ddelta k2 := by
        intro k2 hk2
        rw [findD_append, hdd]
        cases hres : findD st.ddelta k2 with
        | some v => rfl
        | none =>
          show findD [((q, c), i)] k2 = none
          rw [findD_eq_none_iff]
          intro e he
          rw [List.mem_singleton.mp he]
          intro hkey
          exact hk2 hkey.symm
      refine ⟨hOr1, hWk1, ⟨?_, ?_⟩, hqO1, hqnw1, hfr, horig1, hwork1,
        fun q2 O2 h1 h2 => hproc1 q2 O2 h1 h2, hnew1, ?_, hmono1, ?_⟩
      · rw [hdd, List.map_append, List.nodup_append]
        refine ⟨hEd.1, by simp, ?_⟩
        intro a ha hb
        simp only [List.map_cons, List.map_nil, List.mem_singleton] at hb
        subst hb
        rw [findD_eq_none_iff] at hnone
        rcases List.mem_map.mp ha with ⟨e, he, hfst⟩
        exact hnone e he hfst
      · intro k j hkj
        rcases List.mem_append.mp hkj with hkj | hkj
        · rw [hdd] at hkj
          obtain ⟨hα, hnw, O, Oj, hO, hOj, hstep⟩ := hEd.2 k j hkj
          exact ⟨hα, hproc1 k.1 O hO hnw, O, Oj, horig1 _ hO, horig1 _ hOj, hstep⟩
        · have hkey : (k, j) = ((q, c), i) := List.mem_singleton.mp hkj
          obtain ⟨hk, hj⟩ := (Prod.mk.injEq _ _ _ _).mp hkey
          subst hk hj
          exact ⟨hcα, hqnw1, qO, M.DeltaS qO (some c), hqO1, hmemT, rfl⟩
      · simp only [List.length_append]
        omega
      · rw [Done1, if_neg hT]
        refine ⟨i, ?_⟩
        rw [findD_append, hnone1]
        show (if (q, c) = (q, c) then some i else none) = some i
        rw [if_pos rfl]

theorem Done1_congr {M : NFAm} {st1 st2 : SubsetSt} {q : Nat} {O : Finset Nat} {c : Char}
    (hfd : findD st2.ddelta (q, c) = findD st1.ddelta (q, c))
    (h : Done1 M st1 q O c) : Done1 M st2 q O c := by
  by_cases hT : M.DeltaS O (some c) = ∅
  · rw [Done1, if_pos hT] at h ⊢
    rw [hfd]
    exact h
  · rw [Done1, if_neg hT] at h ⊢
    rw [hfd]
    exact h

/-- Result of processing the whole remaining character list for popped id `q`. -/
theorem foldChars_ok (M : NFAm) (alpha : List Char) (q : Nat) (qO : Finset Nat)
    (hWFM : M.delta.WFm) :
    ∀ (cs : List Char) (st : SubsetSt),
      (∀ c ∈ cs, c ∈ alpha) → cs.Nodup →
      OriginsOK M st → WorkOK st → EdgesOK M alpha st →
      (q, qO) ∈ st.origins → q ∉ st.work →
      (∀ c ∈ cs, findD st.ddelta (q, c) = none) →
      ∃ st', cs.foldlM (fun s c => subsetChar M q qO s c) st = .ok st' ∧
        OriginsOK M st' ∧ WorkOK st' ∧ EdgesOK M alpha st' ∧
        (q, qO) ∈ st'.origins ∧ q ∉ st'.work ∧
        (∀ c ∈ cs, Done1 M st' q qO c) ∧
        (∀ k2 : Nat × Char, (k2.1 ≠ q ∨ k2.2 ∉ cs) →
          findD st'.ddelta k2 = findD st.ddelta k2) ∧
        (∀ p ∈ st.origins, p ∈ st'.origins) ∧
        (∀ x ∈ st.work, x ∈ st'.work) ∧
        (∀ q2 O2, (q2, O2) ∈ st.origins → q2 ∉ st.work → q2 ∉ st'.work) ∧
        (∀ p ∈ st'.origins, p ∈ st.origins ∨ p.1 ∈ st'.work) ∧
        (st'.origins.length + st.work.length = st.origins.length + st'.work.length) ∧
        st.origins.length ≤ st'.origins.length := by
  intro cs
  induction cs with
  | nil =>
    intro st _ _ hOr hWk hEd hqO hqnw _
    refine ⟨st, rfl, hOr, hWk, hEd, hqO, hqnw, by simp, fun _ _ => rfl,
      fun p hp => hp, fun x hx => hx, fun _ _ _ h => h, fun p hp => Or.inl hp, rfl, le_rfl⟩
  | cons c cs ih =>
    intro st hα hnd hOr hWk hEd hqO hqnw hnone
    obtain ⟨hcnotin, hcsnd⟩ := List.nodup_cons.mp hnd
    obtain ⟨st1, hchar, hcs⟩ :=
      subsetChar_ok M alpha q qO st c hWFM hOr hWk hEd hqO hqnw
        (hα c (List.mem_cons_self c cs)) (hnone c (List.mem_cons_self c cs))
    have hnone1 : ∀ c2 ∈ cs, findD st1.ddelta (q, c2) = none := by
      intro c2 hc2
      have hne : (q, c2) ≠ (q, c) := by
        intro hk
        exact hcnotin (((Prod.mk.injEq _ _ _ _).mp hk).2 ▸ hc2)
      rw [hcs.hframe _ hne]
      exact hnone c2 (List.mem_cons_of_mem _ hc2)
    obtain ⟨st', hfold, hOr', hWk', hEd', hqO', hqnw', hdone', hframe', horig', hwork',
        hproc', hnew', hlen', hmono'⟩ :=
      ih st1 (fun c2 hc2 => hα c2 (List.mem_cons_of_mem _ hc2)) hcsnd
        hcs.hOr hcs.hWk hcs.hEd hcs.hmemq hcs.hqnw hnone1
    refine ⟨st', ?_, hOr', hWk', hEd', hqO', hqnw', ?_, ?_, ?_, ?_, ?_, ?_, ?_, ?_⟩
    · rw [List.foldlM_cons, hchar]
      exact hfold
    · intro c2 hc2
      rcases List.mem_cons.mp hc2 with hc2 | hc2
      · subst hc2
        refine Done1_congr ?_ hcs.hdone
        exact hframe' (q, c2) (Or.inr hcnotin)
      · exact hdone' c2 hc2
    · intro k2 hk2
      have hk2cs : k2.1 ≠ q ∨ k2.2 ∉ cs := by
        rcases hk2 with h | h
        · exact Or.inl h
        · exact Or.inr (fun hmem => h (List.mem_cons_of_mem _ hmem))
      have hk2c : k2 ≠ (q, c) := by
        intro he
        subst he
        rcases hk2 with h | h
        · exact h rfl
        · exact h (List.mem_cons_self _ _)
      rw [hframe' k2 hk2cs, hcs.hframe k2 hk2c]
    · intro p hp; exact horig' p (hcs.horig p hp)
    · intro x hx; exact hwork' x (hcs.hwork x hx)
    · intro q2 O2 h1 h2
      have h3 := hcs.hproc q2 O2 h1 h2
      have h4 : (q2, O2) ∈ st1.origins := hcs.horig _ h1
      exact hproc' q2 O2 h4 h3
    · intro p hp
      rcases hnew' p hp with hp1 | hp1
      · rcases hcs.hnew p hp1 with hp2 | hp2
        · exact Or.inl hp2
        · exact Or.inr (hwork' _ hp2)
      · exact Or.inr hp1
    · have h1 := hcs.hlen
      omega
    · exact hcs.hmono.trans hmono'

/-- Pigeonhole bound: the registry never exceeds the number of macro-states. -/
theorem origins_length_le (M : NFAm) (st : SubsetSt) (hOr : OriginsOK M st) :
    st.origins.length ≤ 2 ^ M.stateUniv.card := by
  obtain ⟨_, hvals, hbnd, _⟩ := hOr
  have h1 : st.origins.length = (st.origins.map Prod.snd).length :=
    (List.length_map _ _).symm
  rw [h1, ← List.toFinset_card_of_nodup hvals, ← Finset.card_powerset]
  apply Finset.card_le_card
  intro O hO
  rw [List.mem_toFinset] at hO
  rcases List.mem_map.mp hO with ⟨p, hp, hval⟩
  rw [← hval]
  exact Finset.mem_powerset.mpr (hbnd p hp).2

theorem subsetLoop_succ (M : NFAm) (alpha : List Char) (fuel : Nat) (st : SubsetSt) :
    subsetLoop M alpha (fuel + 1) st =
      match st.work with
      | [] => .ok st
      | q :: rest =>
        alpha.foldlM (fun s c => subsetChar M q ((findId st.origins q).getD ∅) s c)
            { st with work := rest } >>=
          fun st1 => subsetLoop M alpha fuel st1 := rfl

/-- The worklist loop terminates within its fuel and establishes the full
processing invariant. -/
theorem subsetLoop_ok (M : NFAm) (alpha : List Char) (hWFM : M.delta.WFm)
    (hand : alpha.Nodup) :
    ∀ (fuel : Nat) (st : SubsetSt),
      OriginsOK M st → WorkOK st → EdgesOK M alpha st →
      (∀ q2 O2, (q2, O2) ∈ st.origins → q2 ∉ st.work → ∀ c ∈ alpha, Done1 M st q2 O2 c) →
      2 * (2 ^ M.stateUniv.card - st.origins.length) + st.work.length < fuel →
      ∃ st', subsetLoop M alpha fuel st = .ok st' ∧
        OriginsOK M st' ∧ EdgesOK M alpha st' ∧ st'.work = [] ∧
        (∀ q2 O2, (q2, O2) ∈ st'.origins → ∀ c ∈ alpha, Done1 M st' q2 O2 c) ∧
        (∀ p ∈ st.origins, p ∈ st'.origins) := by
  intro fuel
  induction fuel with
  | zero =>
    intro st _ _ _ _ hbound
    exact absurd hbound (Nat.not_lt_zero _)
  | succ fuel ih =>
    intro st hOr hWk hEd hAD hbound
    cases hw : st.work with
    | nil =>
      refine ⟨st, ?_, hOr, hEd, hw, ?_, fun p hp => hp⟩
      · rw [subsetLoop_succ, hw]
      · intro q2 O2 h2 c hc
        exact hAD q2 O2 h2 (by rw [hw]; exact List.not_mem_nil q2) c hc
    | cons q rest =>
      obtain ⟨O, hO⟩ := hWk.2 q (by rw [hw]; exact List.mem_cons_self _ _)
      have hfind : findId st.origins q = some O := findId_some_of_mem hO hOr.1
      have hwnd := hWk.1
      rw [hw, List.nodup_cons] at hwnd
      have hst0Or : OriginsOK M { st with work := rest } := hOr
      have hst0Wk : WorkOK { st with work := rest } := by
        refine ⟨hwnd.2, ?_⟩
        intro x hx
        exact hWk.2 x (by rw [hw]; exact List.mem_cons_of_mem _ hx)
      have hst0Ed : EdgesOK M alpha { st with work := rest } := by
        refine ⟨hEd.1, ?_⟩
        intro k j hkj
        obtain ⟨hα, hnw, O2, Oj, hO2, hOj, hstep⟩ := hEd.2 k j hkj
        refine ⟨hα, ?_, O2, Oj, hO2, hOj, hstep⟩
        intro hmem
        exact hnw (by rw [hw]; exact List.mem_cons_of_mem _ hmem)
      have hqnone : ∀ c ∈ alpha, findD st.ddelta (q, c) = none := by
        intro c _
        cases hres : findD st.ddelta (q, c) with
        | none => rfl
        | some j =>
          obtain ⟨_, hnw, _⟩ := hEd.2 _ _ (findD_some_mem hres)
          exact absurd (by rw [hw]; exact List.mem_cons_self _ _) hnw
      obtain ⟨st1, hfold, hOr1, hWk1, hEd1, hqO1, hqnw1, hdone1, hframe1, horig1, hwork1,
          hproc1, hnew1, hlen1, hmono1⟩ :=
        foldChars_ok M alpha q O hWFM alpha { st with work := rest }
          (fun c hc => hc) hand hst0Or hst0Wk hst0Ed hO hwnd.1 hqnone
      dsimp only at hfold hframe1 horig1 hwork1 hproc1 hnew1 hlen1 hmono1
      have hAD1 : ∀ q2 O2, (q2, O2) ∈ st1.origins → q2 ∉ st1.work →
          ∀ c ∈ alpha, Done1 M st1 q2 O2 c := by
        intro q2 O2 h2 hnw2 c hc
        by_cases hq2 : q2 = q
        · subst hq2
          have : O2 = O := mem_origins_unique hOr1.1 h2 hqO1
          subst this
          exact hdone1 c hc
        · have h3 : (q2, O2) ∈ st.origins := by
            rcases hnew1 (q2, O2) h2 with h3 | h3
            · exact h3
            · exact absurd h3 hnw2
          have h4 : q2 ∉ rest := fun hmem => hnw2 (hwork1 _ hmem)
          have h5 : q2 ∉ st.work := by
            rw [hw]
            intro hmem
            rcases List.mem_cons.mp hmem with h6 | h6
            · exact hq2 h6
            · exact h4 h6
          refine Done1_congr ?_ (hAD q2 O2 h3 h5 c hc)
          exact hframe1 (q2, c) (Or.inl hq2)
      have hlen1' := origins_length_le M st1 hOr1
      have hbound1 : 2 * (2 ^ M.stateUniv.card - st1.origins.length) +
          st1.work.length < fuel := by
        have hw' : st.work.length = rest.length + 1 := by rw [hw]; rfl
        omega
      obtain ⟨st', hloop, hOr', hEd', hw', hAD', horig'⟩ :=
        ih st1 hOr1 hWk1 hEd1 hAD1 hbound1
      refine ⟨st', ?_, hOr', hEd', hw', hAD', ?_⟩
      · rw [subsetLoop_succ, hw]
        show (alpha.foldlM (fun s c => subsetChar M q ((findId st.origins q).getD ∅) s c)
            { st with work := rest } >>= fun st1 => subsetLoop M alpha fuel st1) = .ok st'
        rw [hfind, Option.getD_some, hfold]
        exact hloop
      · intro p hp
        exact horig' p (horig1 p hp)

/-! Final correctness of the subset construction. -/

theorem bool_eq_of_iff {a b : Bool} (h : a = true ↔ b = true) : a = b := by
  cases a <;> cases b <;> simp_all

theorem run_eq_fold_of_no_eps (M : NFAm) (hnol : ∀ q, M.delta.get (q, none) = ∅)
    (w : List Char) :
    M.run w = w.foldl (fun S c => M.DeltaS S (some c)) {M.q0} := by
  unfold NFAm.run
  have hf : (fun S c => M.epsClosure (M.DeltaS S (some c))) =
      (fun S c => M.DeltaS S (some c)) := by
    funext S c
    exact M.epsClosure_eq_self_of_no_eps hnol _
  rw [hf, M.epsClosure_eq_self_of_no_eps hnol]

/-- The DFA value assembled from the final loop state. -/
def dfaOf (M : NFAm) (stF : SubsetSt) : DFAm :=
  ⟨0, stF.ddelta, ((stF.origins.filter (fun p => (p.2 ∩ M.F).Nonempty)).map Prod.fst).toFinset⟩

theorem dfaOf_F_iff {M : NFAm} {stF : SubsetSt} (hids : (stF.origins.map Prod.fst).Nodup)
    {q : Nat} {O : Finset Nat} (hO : (q, O) ∈ stF.origins) :
    q ∈ (dfaOf M stF).F ↔ (O ∩ M.F).Nonempty := by
  show q ∈ ((stF.origins.filter (fun p => (p.2 ∩ M.F).Nonempty)).map Prod.fst).toFinset ↔ _
  rw [List.mem_toFinset]
  constructor
  · intro h
    rcases List.mem_map.mp h with ⟨p, hp, hfst⟩
    rcases List.mem_filter.mp hp with ⟨hporig, hpcond⟩
    have : p.2 = O := by
      have hpO : (q, p.2) ∈ stF.origins := by
        have : p = (q, p.2) := by
          rw [← hfst]
        rw [← this]
        exact hporig
      exact mem_origins_unique hids hpO hO
    rw [this] at hpcond
    exact of_decide_eq_true hpcond
  · intro h
    refine List.mem_map.mpr ⟨(q, O), List.mem_filter.mpr ⟨hO, decide_eq_true h⟩, rfl⟩

/-- The constructed DFA walk agrees with the ε-free NFA's set walk from the
macro-state of any registered id. -/
theorem dfa_go_correct (M : NFAm) (alpha : List Char) (stF : SubsetSt)
    (hWFM : M.delta.WFm)
    (halpha : ∀ c, c ∈ alpha ↔ c ∈ M.alphaChars)
    (hOr : OriginsOK M stF) (hEd : EdgesOK M alpha stF)
    (hAD : ∀ q2 O2, (q2, O2) ∈ stF.origins → ∀ c ∈ alpha, Done1 M stF q2 O2 c) :
    ∀ (w : List Char) (q : Nat) (O : Finset Nat), (q, O) ∈ stF.origins →
      ((dfaOf M stF).go q w = true ↔
        ((w.foldl (fun S c => M.DeltaS S (some c)) O) ∩ M.F).Nonempty) := by
  intro w
  induction w with
  | nil =>
    intro q O hO
    show decide (q ∈ (dfaOf M stF).F) = true ↔ _
    rw [decide_eq_true_eq]
    exact dfaOf_F_iff hOr.1 hO
  | cons c cs ih =>
    intro q O hO
    have hempty : M.DeltaS O (some c) = ∅ → findD stF.ddelta (q, c) = none →
        ((dfaOf M stF).go q (c :: cs) = true ↔
          (((c :: cs).foldl (fun S c => M.DeltaS S (some c)) O) ∩ M.F).Nonempty) := by
      intro hT hfd
      have hgo : (dfaOf M stF).go q (c :: cs) = false := by
        show (match findD stF.ddelta (q, c) with
          | none => false
          | some q2 => (dfaOf M stF).go q2 cs) = false
        rw [hfd]
      rw [hgo]
      rw [List.foldl_cons, hT, foldl_DeltaS_from_empty M cs, Finset.empty_inter]
      constructor
      · intro h
        exact absurd h (by simp)
      · intro h
        exact absurd h Finset.not_nonempty_empty
    by_cases hca : c ∈ alpha
    · have hd1 := hAD q O hO c hca
      by_cases hT : M.DeltaS O (some c) = ∅
      · rw [Done1, if_pos hT] at hd1
        exact hempty hT hd1
      · rw [Done1, if_neg hT] at hd1
        rcases hd1 with ⟨j, hj⟩
        have hedge := findD_some_mem hj
        obtain ⟨_, _, O2, Oj, hO2, hOj, hstep⟩ := hEd.2 (q, c) j hedge
        have hO2O : O2 = O := mem_origins_unique hOr.1 hO2 hO
        subst hO2O
        have hgo : (dfaOf M stF).go q (c :: cs) = (dfaOf M stF).go j cs := by
          show (match findD stF.ddelta (q, c) with
            | none => false
            | some q2 => (dfaOf M stF).go q2 cs) = _
          rw [hj]
        rw [hgo, List.foldl_cons, ← hstep]
        exact ih j Oj hOj
    · have hT : M.DeltaS O (some c) = ∅ :=
        DeltaS_empty_of_not_alpha hWFM (fun h => hca ((halpha c).mpr h)) O
      have hfd : findD stF.ddelta (q, c) = none := by
        cases hres : findD stF.ddelta (q, c) with
        | none => rfl
        | some j =>
          obtain ⟨hα, _⟩ := hEd.2 (q, c) j (findD_some_mem hres)
          exact absurd hα hca
      exact hempty hT hfd

/-- Full run of `eps_free_NFA_to_DFA`: the loop finishes (no assertion fires)
and the result accepts exactly the words of the ε-free NFA. -/
theorem subsetRun_ok (M : NFAm) (hWFM : M.delta.WFm)
    (hkey : none ∉ M.delta.keys.image Prod.snd) :
    ∃ stF, subsetRun M = .ok stF ∧
      OriginsOK M stF ∧
      EdgesOK M (sortedChars M.alphaChars.card M.alphaChars) stF ∧
      stF.work = [] ∧
      (∀ q2 O2, (q2, O2) ∈ stF.origins →
        ∀ c ∈ sortedChars M.alphaChars.card M.alphaChars, Done1 M stF q2 O2 c) := by
  have hand : (sortedChars M.alphaChars.card M.alphaChars).Nodup := sortedChars_nodup _ _
  have hOr0 : OriginsOK M ⟨1, [(0, {M.q0})], [], [0]⟩ := by
    refine ⟨by simp, by simp, ?_, by simp⟩
    intro p hp
    rw [List.mem_singleton.mp hp]
    exact ⟨Nat.zero_lt_one, Finset.singleton_subset_iff.mpr (Finset.mem_insert_self _ _)⟩
  have hWk0 : WorkOK ⟨1, [(0, {M.q0})], [], [0]⟩ := by
    refine ⟨by simp, ?_⟩
    intro q hq
    rw [List.mem_singleton.mp hq]
    exact ⟨{M.q0}, by simp⟩
  have hEd0 : EdgesOK M (sortedChars M.alphaChars.card M.alphaChars)
      ⟨1, [(0, {M.q0})], [], [0]⟩ := by
    refine ⟨by simp, ?_⟩
    intro k j hkj
    exact absurd hkj (List.not_mem_nil _)
  have hAD0 : ∀ q2 O2, (q2, O2) ∈ ([(0, ({M.q0} : Finset Nat))] :
        List (Nat × Finset Nat)) → q2 ∉ [0] →
      ∀ c ∈ sortedChars M.alphaChars.card M.alphaChars,
        Done1 M ⟨1, [(0, {M.q0})], [], [0]⟩ q2 O2 c := by
    intro q2 O2 h2 hnw
    have : q2 = 0 := ((Prod.mk.injEq _ _ _ _).mp (List.mem_singleton.mp h2)).1
    subst this
    exact absurd (List.mem_singleton_self 0) hnw
  have hbound : 2 * (2 ^ M.stateUniv.card - 1) + 1 < subsetFuel M := by
    unfold subsetFuel
    have : 1 ≤ 2 ^ M.stateUniv.card := Nat.one_le_two_pow
    omega
  obtain ⟨stF, hloop, hOr', hEd', hw', hAD', _⟩ :=
    subsetLoop_ok M (sortedChars M.alphaChars.card M.alphaChars) hWFM hand
      (subsetFuel M) ⟨1, [(0, {M.q0})], [], [0]⟩ hOr0 hWk0 hEd0 hAD0 hbound
  refine ⟨stF, ?_, hOr', hEd', hw', hAD'⟩
  unfold subsetRun
  rw [if_neg hkey]
  exact hloop

/-- Correctness of `eps_free_NFA_to_DFA` on any ε-free well-formed NFA. -/
theorem subset_correct (M : NFAm) (hWFM : M.delta.WFm)
    (hkey : none ∉ M.delta.keys.image Prod.snd) :
    ∃ d, epsFreeToDFA M = .ok d ∧ ∀ w, d.accepts w = M.accepts w := by
  obtain ⟨stF, hrun, hOr, hEd, _, hAD⟩ := subsetRun_ok M hWFM hkey
  have hnol : ∀ q, M.delta.get (q, none) = ∅ := by
    intro q
    by_cases hk : (q, none) ∈ M.delta.keys
    · exact absurd (Finset.mem_image.mpr ⟨(q, none), hk, rfl⟩) hkey
    · exact hWFM _ hk
  have halpha : ∀ c, c ∈ sortedChars M.alphaChars.card M.alphaChars ↔
      c ∈ M.alphaChars := by
    intro c
    constructor
    · exact sortedChars_subset _ _ c
    · exact sortedChars_mem _ _ le_rfl c
  refine ⟨dfaOf M stF, ?_, ?_⟩
  · unfold epsFreeToDFA
    rw [hrun]
    rfl
  · intro w
    apply bool_eq_of_iff
    have hgo := dfa_go_correct M (sortedChars M.alphaChars.card M.alphaChars) stF
      hWFM halpha hOr hEd hAD w 0 {M.q0} hOr.2.2.2
    have haccd : (dfaOf M stF).accepts w = (dfaOf M stF).go 0 w := rfl
    rw [haccd, hgo]
    show _ ↔ M.accepts w = true
    unfold NFAm.accepts
    rw [decide_eq_true_eq, run_eq_fold_of_no_eps M hnol w]

/-- Correctness of the whole determinizer `NFA_to_DFA`. -/
theorem NFA_to_DFA_correct (n : NFAm) (hWF : n.delta.WFm) :
    ∃ d, NFA_to_DFA n = .ok d ∧ ∀ w, d.accepts w = n.accepts w := by
  obtain ⟨d, hd, hacc⟩ :=
    subset_correct (epsFreeNFA n) (epsFree_WF n hWF) (epsFree_no_none_key n)
  refine ⟨d, hd, ?_⟩
  intro w
  rw [hacc w, epsFree_accepts_eq n hWF w]

/-! Properties of the normalizer `standardize`. -/

theorem isConcatPair_dot_right (a : Char) : isConcatPair a '.' = false := by
  unfold isConcatPair
  apply decide_eq_false
  intro hmem
  have hd : classify '.' = '.' := rfl
  rw [hd] at hmem
  simp only [List.mem_cons, List.mem_singleton, List.cons.injEq, List.nil_eq] at hmem
  rcases hmem with h | h | h | h | h | h <;> simp_all

theorem isConcatPair_dot_left (b : Char) : isConcatPair '.' b = false := by
  unfold isConcatPair
  apply decide_eq_false
  intro hmem
  have hd : classify '.' = '.' := rfl
  rw [hd] at hmem
  simp only [List.mem_cons, List.mem_singleton, List.cons.injEq, List.nil_eq] at hmem
  rcases hmem with h | h | h | h | h | h <;> simp_all

theorem insertDots_head (b : Char) (t : List Char) :
    ∃ t2, insertDots (b :: t) = b :: t2 := by
  cases t with
  | nil => exact ⟨[], rfl⟩
  | cons c t => exact ⟨(if isConcatPair b c then ['.'] else []) ++ insertDots (c :: t), rfl⟩

theorem insertDots_mem : ∀ (t : List Char) (c : Char), c ∈ insertDots t → c ∈ t ∨ c = '.' := by
  intro t
  induction t with
  | nil => intro c hc; exact absurd hc (List.not_mem_nil c)
  | cons a tl ih =>
    cases tl with
    | nil =>
      intro c hc
      exact Or.inl hc
    | cons b t =>
      intro c hc
      rcases List.mem_cons.mp hc with hc | hc
      · exact Or.inl (hc ▸ List.mem_cons_self a (b :: t))
      · rcases List.mem_append.mp hc with hc | hc
        · by_cases hp : isConcatPair a b
          · rw [if_pos hp] at hc
            exact Or.inr (List.mem_singleton.mp hc)
          · rw [if_neg hp] at hc
            exact absurd hc (List.not_mem_nil c)
        · rcases ih c hc with h | h
          · exact Or.inl (List.mem_cons_of_mem _ h)
          · exact Or.inr h

theorem insertDots_cons_cons (a b : Char) (t : List Char) :
    insertDots (a :: b :: t) =
      a :: ((if isConcatPair a b then ['.'] else []) ++ insertDots (b :: t)) := rfl

theorem insertDots_idem : ∀ t : List Char, insertDots (insertDots t) = insertDots t := by
  intro t
  induction t with
  | nil => rfl
  | cons a tl ih =>
    cases tl with
    | nil => rfl
    | cons b t =>
      obtain ⟨t2, ht2⟩ := insertDots_head b t
      have hcr : ∀ x : Char, ¬(isConcatPair x '.' = true) := by
        intro x hx
        rw [isConcatPair_dot_right] at hx
        exact absurd hx (by simp)
      have hcl : ∀ x : Char, ¬(isConcatPair '.' x = true) := by
        intro x hx
        rw [isConcatPair_dot_left] at hx
        exact absurd hx (by simp)
      by_cases hp : isConcatPair a b = true
      · have hL : insertDots (a :: b :: t) = a :: '.' :: insertDots (b :: t) := by
          rw [insertDots_cons_cons, if_pos hp]
          rfl
        rw [hL, ht2]
        have hA : insertDots (a :: '.' :: b :: t2) = a :: insertDots ('.' :: b :: t2) := by
          rw [insertDots_cons_cons, if_neg (hcr a)]
          rfl
        have hB : insertDots ('.' :: b :: t2) = '.' :: insertDots (b :: t2) := by
          rw [insertDots_cons_cons, if_neg (hcl b)]
          rfl
        rw [hA, hB, ← ht2, ih, ht2]
      · have hL : insertDots (a :: b :: t) = a :: insertDots (b :: t) := by
          rw [insertDots_cons_cons, if_neg hp]
          rfl
        rw [hL, ht2]
        have hA : insertDots (a :: b :: t2) = a :: insertDots (b :: t2) := by
          rw [insertDots_cons_cons, if_neg hp]
          rfl
        rw [hA, ← ht2, ih, ht2]

theorem dot_not_ws : ('.' : Char).isWhitespace = false := rfl

theorem removeWS_insertDots (t : List Char) (h : ∀ c ∈ t, c.isWhitespace = false) :
    removeWS (insertDots t) = insertDots t := by
  unfold removeWS
  apply List.filter_eq_self.mpr
  intro c hc
  rcases insertDots_mem t c hc with h2 | h2
  · rw [h c h2]; rfl
  · rw [h2, dot_not_ws]; rfl

theorem removeWS_mem_not_ws (s : List Char) : ∀ c ∈ removeWS s, c.isWhitespace = false := by
  intro c hc
  have h2 := (List.mem_filter.mp hc).2
  rcases Bool.eq_false_or_eq_true c.isWhitespace with h | h
  · rw [h] at h2
    exact absurd h2 (by simp)
  · exact h

theorem insertDots_eq_specNormalize : ∀ t : List Char, insertDots t = specNormalize t := by
  intro t
  induction t with
  | nil => rfl
  | cons a tl ih =>
    cases tl with
    | nil => rfl
    | cons b t =>
      show a :: ((if isConcatPair a b then ['.'] else []) ++ insertDots (b :: t)) =
        a :: (List.zip (a :: b :: t) (b :: t)).foldr
          (fun p acc => (if isConcatPair p.1 p.2 then ['.'] else []) ++ p.2 :: acc) []
      rw [ih]
      show a :: ((if isConcatPair a b then ['.'] else []) ++ specNormalize (b :: t)) =
        a :: ((if isConcatPair a b then ['.'] else []) ++
          (b :: (List.zip (b :: t) t).foldr
            (fun p acc => (if isConcatPair p.1 p.2 then ['.'] else []) ++ p.2 :: acc) []))
      rfl

/-! Property of the star fragment in Thompson's construction. -/

theorem star_fragment (child : PNode) (g : Nat) (N : NFAm) (g2 : Nat)
    (h : constructNFA child g = .ok (N, g2)) :
    ∃ Ns, constructNFA (PNode.mk '*' (some child) none) g = .ok (Ns, g2) ∧
      Ns.q0 = N.q0 ∧ Ns.F = N.F ∪ {N.q0} ∧ Ns.q0 ∈ Ns.F ∧ Ns.accepts [] = true := by
  have hstep : constructNFA (PNode.mk '*' (some child) none) g =
      (constructNFA child g).bind (fun p => .ok (starNFA p.1, p.2)) := rfl
  refine ⟨starNFA N, ?_, rfl, rfl, ?_, ?_⟩
  · rw [hstep, h]
    rfl
  · exact Finset.mem_union_right _ (Finset.mem_singleton_self _)
  · unfold NFAm.accepts
    rw [decide_eq_true_eq]
    refine ⟨N.q0, Finset.mem_inter.mpr ⟨?_,
      Finset.mem_union_right _ (Finset.mem_singleton_self _)⟩⟩
    exact NFAm.subset_epsClosure _ {N.q0} (Finset.mem_singleton_self _)

/-! Concrete automata used by the witnesses, and the claims. -/

theorem SetMap.ofList_WF (l : List ((Nat × Sym) × Finset Nat)) : (SetMap.ofList l).WFm := by
  intro k hk
  show (((l.find? (fun e => e.1 = k)).map Prod.snd).getD ∅) = ∅
  cases hres : l.find? (fun e => e.1 = k) with
  | none => rfl
  | some e =>
    have hmem := List.mem_of_find?_eq_some hres
    have hp := List.find?_some hres
    exfalso
    apply hk
    show k ∈ (l.map Prod.fst).toFinset
    rw [List.mem_toFinset]
    exact List.mem_map.mpr ⟨e, hmem, of_decide_eq_true hp⟩

/-- The ε-NFA of the source's own test suite (`TestFunction_nfa_to_dfa`):
`q0 = 0`, `delta = {(0,ε):{1,2}, (1,a):{1,3}, (2,ε):{3}, (3,c):{4}}`, `F = {3,4}`. -/
def witnessNFA : NFAm :=
  ⟨0, SetMap.ofList [((0, none), {1, 2}), ((1, some 'a'), {1, 3}), ((2, none), {3}),
    ((3, some 'c'), {4})], {3, 4}⟩

/-- An NFA whose start has an ε-reachable accepting state, exhibiting the
`new_F = nfa.F` aliasing of `NFA_to_eps_free_NFA`. -/
def aliasNFA : NFAm := ⟨0, SetMap.ofList [((0, none), {1})], {1}⟩

/-- Claim C1: `construct_matcher("a*b*")` returns a matcher that accepts `""`,
`"a"`, `"b"`, `"ab"`, `"aabb"` and rejects `"ba"`, `"aba"`; but the claim's
universal clause fails: on the syntactically valid regex `"((a))"` the
infix-to-prefix stage hits `assert op_stack` (the `'('` handler pops one extra
operator after every group, swallowing the outer `')'`), so `construct_matcher`
raises instead of returning a matcher. -/
theorem constructMatcher_eval :
    constructMatcher "((a))".toList = .error "assert op_stack" ∧
    isOkB (constructMatcher "a*b*".toList) = true ∧
    matcherAccepts "a*b*".toList "".toList = true ∧
    matcherAccepts "a*b*".toList "a".toList = true ∧
    matcherAccepts "a*b*".toList "b".toList = true ∧
    matcherAccepts "a*b*".toList "ab".toList = true ∧
    matcherAccepts "a*b*".toList "aabb".toList = true ∧
    matcherRejects "a*b*".toList "ba".toList = true ∧
    matcherRejects "a*b*".toList "aba".toList = true :=
  ⟨rfl, by decide, by decide, by decide, by decide, by decide, by decide, by decide,
    by decide⟩

/-- Claim C2: for every NFA `N` (a Python dict-backed value, hence `WFm`) and
every word over the alphabet of `N`, the DFA produced by `NFA_to_DFA(N)`
accepts the word iff `N` accepts it. -/
theorem NFA_to_DFA_equivalence (n : NFAm) (w : List Char)
    (hWF : n.delta.WFm)
    (_hw : ∀ c ∈ w, some c ∈ n.delta.keys.image Prod.snd) :
    ∃ d, NFA_to_DFA n = .ok d ∧ d.accepts w = n.accepts w := by
  obtain ⟨d, hd, hacc⟩ := NFA_to_DFA_correct n hWF
  exact ⟨d, hd, hacc w⟩

theorem NFA_to_DFA_equivalence_witness :
    witnessNFA.delta.WFm ∧
    (∀ c ∈ ['a', 'c'], some c ∈ witnessNFA.delta.keys.image Prod.snd) ∧
    ∃ d, NFA_to_DFA witnessNFA = .ok d ∧
      d.accepts ['a', 'c'] = witnessNFA.accepts ['a', 'c'] :=
  ⟨SetMap.ofList_WF _, by decide,
    NFA_to_DFA_equivalence witnessNFA ['a', 'c'] (SetMap.ofList_WF _) (by decide)⟩

/-- Claim C3: for every NFA `N` and every word, the ε-free NFA produced by
`NFA_to_eps_free_NFA` accepts the word iff `N` accepts it. -/
theorem eps_elimination_equivalence (n : NFAm) (w : List Char) (hWF : n.delta.WFm) :
    (epsFreeNFA n).accepts w = n.accepts w :=
  epsFree_accepts_eq n hWF w

theorem eps_elimination_equivalence_witness :
    witnessNFA.delta.WFm ∧
    (epsFreeNFA witnessNFA).accepts ['a'] = witnessNFA.accepts ['a'] :=
  ⟨SetMap.ofList_WF _, eps_elimination_equivalence witnessNFA ['a'] (SetMap.ofList_WF _)⟩

/-- Claim C4 (the code, evaluated at the failing input): `NFA_to_eps_free_NFA`
binds `new_F = nfa.F` by reference and then calls `new_F.add(new_q0)`, so the
call mutates the input NFA's accepting set.  On `NFA(q0=0, delta={(0,ε):{1}},
F={1})` the object the caller's `F` refers to holds `{0, 1}` after the call,
not the original `{1}`. -/
theorem epsFree_mutates_input_F :
    (epsFreeNFA aliasNFA).F = {0, 1} ∧ aliasNFA.F = {1} := by
  constructor
  · decide
  · decide

/-- Claim C5 (the code, evaluated at failing inputs): `construct_parse_tree`
discards the remainder returned by `construct_branch` and raises no error on
truncated input: the empty regex yields `None` rather than an `InvalidSyntax`
error, and the truncated prefix input `"*"` yields a star node with a missing
operand. -/
theorem constructParseTree_truncated :
    constructParseTree [] = .ok none ∧
    constructBranch 2 ['*'] = .ok (some (.mk '*' none none), []) :=
  ⟨rfl, rfl⟩

/-- Claim C6: the three specified infix-to-prefix conversions. -/
theorem infixToPrefix_scenarios :
    infixToPrefixFn "a|b.c".toList = .ok "|a.bc".toList ∧
    infixToPrefixFn "(a*.b.c*)*".toList = .ok "*..*ab*c".toList ∧
    infixToPrefixFn "d|(a*.b|c*).e".toList = .ok "|d.|.*ab*ce".toList :=
  ⟨rfl, rfl, rfl⟩

/-- Claim C7: `standardize` removes all whitespace and then inserts `'.'`
between an adjacent pair exactly when the pair's classification is one of
`AA, A(, *A, *(, )(, )A` (the spec-side pairwise rule `specNormalize`) and does
nothing else; in particular `standardize(" ( a * b c * ) *") = "(a*.b.c*)*"`. -/
theorem standardize_concat_rule :
    (∀ s : List Char, standardize s = specNormalize (removeWS s)) ∧
    standardize " ( a * b c * ) *".toList = "(a*.b.c*)*".toList :=
  ⟨fun s => insertDots_eq_specNormalize (removeWS s), by decide⟩

/-- Claim C8: normalization is idempotent:
`standardize (standardize s) = standardize s` for every string. -/
theorem standardize_idempotent (s : List Char) :
    standardize (standardize s) = standardize s := by
  unfold standardize
  rw [removeWS_insertDots (removeWS s) (removeWS_mem_not_ws s), insertDots_idem]

/-- Claim C9: for every AST `child` that Thompson's construction compiles (to
`N`), the star fragment keeps `N`'s start, has accepting set
`F = N.F ∪ {N.q0}` — so its initial state is accepting — and the NFA built for
the starred regex accepts the empty word. -/
theorem star_fragment_empty_word (child : PNode) (g : Nat) (N : NFAm) (g2 : Nat)
    (h : constructNFA child g = .ok (N, g2)) :
    ∃ Ns, constructNFA (PNode.mk '*' (some child) none) g = .ok (Ns, g2) ∧
      Ns.q0 = N.q0 ∧ Ns.F = N.F ∪ {N.q0} ∧ Ns.q0 ∈ Ns.F ∧ Ns.accepts [] = true :=
  star_fragment child g N g2 h

theorem star_fragment_empty_word_witness :
    constructNFA (PNode.mk 'a' none none) 0 = .ok (leafNFA 'a' 0, 2) ∧
    ∃ Ns, constructNFA (PNode.mk '*' (some (PNode.mk 'a' none none)) none) 0 =
        .ok (Ns, 2) ∧
      Ns.q0 = (leafNFA 'a' 0).q0 ∧ Ns.F = (leafNFA 'a' 0).F ∪ {(leafNFA 'a' 0).q0} ∧
      Ns.q0 ∈ Ns.F ∧ Ns.accepts [] = true :=
  ⟨rfl, star_fragment_empty_word (PNode.mk 'a' none none) 0 (leafNFA 'a' 0) 2 rfl⟩

/-- Claim C10: throughout the subset construction inside `NFA_to_DFA` (which
runs it on the ε-elimination output), the loop completes without the internal
`assert (q, ch) not in new_delta` firing (the assertion is the model's `.error`
branch, and the run is `.ok`), `state_origins` maps distinct ids to set-unequal
macro-states, and the DFA transition keys are pairwise distinct, so the
resulting `delta` is a well-defined partial function. -/
theorem subset_registry_ok (n : NFAm) (hWF : n.delta.WFm) :
    ∃ st, subsetRun (epsFreeNFA n) = .ok st ∧
      (st.origins.map Prod.snd).Nodup ∧
      (st.ddelta.map Prod.fst).Nodup := by
  obtain ⟨st, hrun, hOr, hEd, _, _⟩ :=
    subsetRun_ok (epsFreeNFA n) (epsFree_WF n hWF) (epsFree_no_none_key n)
  exact ⟨st, hrun, hOr.2.1, hEd.1⟩

theorem subset_registry_ok_witness :
    witnessNFA.delta.WFm ∧
    ∃ st, subsetRun (epsFreeNFA witnessNFA) = .ok st ∧
      (st.origins.map Prod.snd).Nodup ∧
      (st.ddelta.map Prod.fst).Nodup :=
  ⟨SetMap.ofList_WF _, subset_registry_ok witnessNFA (SetMap.ofList_WF _)⟩

end RegexTools
